import Mathlib

/-!
# queercat: a shallow embedding of `src/main.c`

The color-rendering engine of queercat is embedded function by function.

Conventions of the embedding:

* `float` and `double` values are idealised as elements of an ordered field `K`
  with a floor function (`ℚ` for evaluation, `ℝ` for the analytic statements);
  floating-point arithmetic is taken as exact, except in the part
  "Binary32 arithmetic of the phase loops", which runs the two loops under
  "Get theta in range" with the rounding of `float`: there they need not end,
  whereas on exact values they always do.
* `int` counters (`char_index`, `line_index`, `cc`, `ncc`, `rand_offset`) are
  mathematical integers; the one place where the C code converts a signed sum
  to `unsigned int` (the palette lookup) is modelled with an explicit
  reduction modulo `2^32`.
* `wint_t` characters are natural numbers (code points); an input stream is the
  list of characters read before `WEOF`.
* Standard output is a list of `Out` events, one per `putwchar`/`wprintf` call.
* The C library (`wcwidth`, `pow`, `sin`, `M_PI`, `RAND_MAX`) is a parameter.
-/

namespace Queercat

/-! ## Common -/

/-- The enum `escape_state_t`. -/
inductive escape_state_t
  | ESCAPE_STATE_OUT
  | ESCAPE_STATE_IN
  | ESCAPE_STATE_LAST
  deriving DecidableEq

/-- The constant `NEWLINE`, the character `'\n'`. -/
def NEWLINE : Nat := 10

/-- The constant `ESCAPE_CHAR`, the character `'\033'`. -/
def ESCAPE_CHAR : Nat := 27

/-- The macro `IS_LETTER(c)`:
`(('a' <= c && c <= 'z') || ('A' <= c && c <= 'Z'))`. -/
def IS_LETTER (c : Nat) : Bool :=
  (97 ≤ c && c ≤ 122) || (65 ≤ c && c ≤ 90)

/-- The macro `NEXT_CYCLIC_ELEMENT(array, index, array_size)`; the C arrays are
zero-initialised, so a position without an initialiser reads as `0`. -/
def NEXT_CYCLIC_ELEMENT (array : List Nat) (index array_size : Nat) : Nat :=
  if index + 1 = array_size then array.getD 0 0 else array.getD (index + 1) 0

/-! ## Types -/

/-- The struct `color_t`: three `uint8_t` channels. -/
structure color_t where
  red : Nat
  green : Nat
  blue : Nat
  deriving DecidableEq

/-- The enum `color_type_t`. -/
inductive color_type_t
  | COLOR_TYPE_INVALID
  | COLOR_TYPE_ANSII
  | COLOR_TYPE_24_BIT
  | COLOR_TYPE_COUNT
  deriving DecidableEq

/-- The struct `ansii_pattern_t`: `codes_count` and the array `ansii_codes`
(its initialisers; the remaining entries of the 30-element array are zero). -/
structure ansii_pattern_t where
  codes_count : Nat
  ansii_codes : List Nat
  deriving DecidableEq

/-- The struct `color_pattern_t`: `stripes_count`, the array `stripes_colors`
(its initialisers; the remaining entries of the 6-element array are zero) and
the easing `factor`. -/
structure color_pattern_t (K : Type) where
  stripes_count : Nat
  stripes_colors : List Nat
  factor : K

/-- The function pointer type `get_color_f`: the catalog only ever stores one of
the two color functions, so the pointer is a tag. -/
inductive get_color_f
  | get_color_rainbow
  | get_color_stripes
  deriving DecidableEq

/-- The struct `pattern_t` (the `name` is kept as a string). -/
structure pattern_t (K : Type) where
  name : String
  ansii_pattern : ansii_pattern_t
  color_pattern : color_pattern_t K
  get_color : get_color_f

/-- The enumerators `FLAG_TYPE_INVALID` and `FLAG_TYPE_END` of `flag_type_t`;
a flag identifier is the integer the command line gave. -/
def FLAG_TYPE_INVALID : Int := -1

/-- The enumerator `FLAG_TYPE_END`, one past `FLAG_TYPE_UNLABELED = 9`. -/
def FLAG_TYPE_END : Int := 10

/-- One write to standard output: `putwchar(c)`, the palette escape
`ESC[38;5;<code>m`, the true-color escape `ESC[38;2;<r>;<g>;<b>m`, or the reset
escape `ESC[0m`. -/
inductive Out
  | putwchar (c : Nat)
  | ansi (code : Nat)
  | rgb (r g b : Nat)
  | reset
  deriving DecidableEq

/-- The C library functions and constants the engine calls. -/
structure Libc (K : Type) where
  wcwidth : Nat → Int
  pow : K → K → K
  sin : K → K
  M_PI : K
  RAND_MAX : K

section Engine

variable {K : Type} [LinearOrderedField K] [FloorRing K]

/-! ## Flags -/

/-- The pattern `rainbow` (`.color_pattern = { 0 }`). -/
def rainbow : pattern_t K where
  name := "rainbow"
  ansii_pattern :=
    { codes_count := 30
      ansii_codes := [39, 38, 44, 43, 49, 48, 84, 83, 119, 118, 154, 148, 184, 178,
        214, 208, 209, 203, 204, 198, 199, 163, 164, 128, 129, 93, 99, 63, 69, 33] }
  color_pattern := { stripes_count := 0, stripes_colors := [], factor := 0 }
  get_color := .get_color_rainbow

/-- The pattern `transgender`. -/
def transgender : pattern_t K where
  name := "transgender"
  ansii_pattern :=
    { codes_count := 10
      ansii_codes := [117, 117, 225, 225, 255, 255, 225, 225, 117, 117] }
  color_pattern :=
    { stripes_count := 5
      stripes_colors := [0x55cdfc, 0xf7a8b8, 0xffffff, 0xf7a8b8, 0x55cdfc]
      factor := 4 }
  get_color := .get_color_stripes

/-- The pattern `nonbinary`. -/
def nonbinary : pattern_t K where
  name := "nonbinary"
  ansii_pattern :=
    { codes_count := 8
      ansii_codes := [226, 226, 255, 255, 93, 93, 234, 234] }
  color_pattern :=
    { stripes_count := 4
      stripes_colors := [0xffff00, 0xb000ff, 0xffffff, 0x000000]
      factor := 4 }
  get_color := .get_color_stripes

/-- The pattern `lesbian`. -/
def lesbian : pattern_t K where
  name := "lesbian"
  ansii_pattern :=
    { codes_count := 5
      ansii_codes := [196, 208, 255, 170, 128] }
  color_pattern :=
    { stripes_count := 5
      stripes_colors := [0xff0000, 0xff993f, 0xffffff, 0xff8cbd, 0xff4284]
      factor := 2 }
  get_color := .get_color_stripes

/-- The pattern `gay`. -/
def gay : pattern_t K where
  name := "gay"
  ansii_pattern :=
    { codes_count := 7
      ansii_codes := [36, 49, 121, 255, 117, 105, 92] }
  color_pattern :=
    { stripes_count := 5
      stripes_colors := [0x00b685, 0x6bffb6, 0xffffff, 0x8be1ff, 0x8e1ae1]
      factor := 6 }
  get_color := .get_color_stripes

/-- The pattern `pansexual`. -/
def pansexual : pattern_t K where
  name := "pansexual"
  ansii_pattern :=
    { codes_count := 9
      ansii_codes := [200, 200, 200, 227, 227, 227, 45, 45, 45] }
  color_pattern :=
    { stripes_count := 3
      stripes_colors := [0xff3388, 0xffea00, 0x00dbff]
      factor := 8 }
  get_color := .get_color_stripes

/-- The pattern `bisexual`. -/
def bisexual : pattern_t K where
  name := "bisexual"
  ansii_pattern :=
    { codes_count := 8
      ansii_codes := [162, 162, 162, 129, 129, 27, 27, 27] }
  color_pattern :=
    { stripes_count := 5
      stripes_colors := [0xff3b7b, 0xff3b7b, 0xd06bcc, 0x3b72ff, 0x3b72ff]
      factor := 4 }
  get_color := .get_color_stripes

/-- The pattern `gender_fluid`. -/
def gender_fluid : pattern_t K where
  name := "gender_fluid"
  ansii_pattern :=
    { codes_count := 10
      ansii_codes := [219, 219, 255, 255, 128, 128, 234, 234, 20, 20] }
  color_pattern :=
    { stripes_count := 5
      stripes_colors := [0xffa0bc, 0xffffff, 0xc600e4, 0x000000, 0x4e3cbb]
      factor := 2 }
  get_color := .get_color_stripes

/-- The pattern `asexual`. -/
def asexual : pattern_t K where
  name := "asexual"
  ansii_pattern :=
    { codes_count := 8
      ansii_codes := [233, 233, 247, 247, 255, 255, 5, 5] }
  color_pattern :=
    { stripes_count := 4
      stripes_colors := [0x000000, 0xa3a3a3, 0xffffff, 0x800080]
      factor := 4 }
  get_color := .get_color_stripes

/-- The pattern `unlabeled`. -/
def unlabeled : pattern_t K where
  name := "unlabeled"
  ansii_pattern :=
    { codes_count := 8
      ansii_codes := [194, 194, 255, 255, 195, 195, 223, 223] }
  color_pattern :=
    { stripes_count := 4
      stripes_colors := [0xe6f9e3, 0xfdfdfb, 0xdeeff9, 0xfae1c2]
      factor := 4 }
  get_color := .get_color_stripes

/-! ## Functions -/

/-- The function `find_escape_sequences`: the new value of `*state`. -/
def find_escape_sequences (current_char : Nat) (state : escape_state_t) : escape_state_t :=
  if current_char = 27 then
    .ESCAPE_STATE_IN
  else if state = .ESCAPE_STATE_IN then
    (if IS_LETTER current_char then .ESCAPE_STATE_LAST else .ESCAPE_STATE_IN)
  else
    .ESCAPE_STATE_OUT

/-- The function `get_pattern`: `none` is the `NULL` of the `default` case. -/
def get_pattern (flag_type : Int) : Option (pattern_t K) :=
  match flag_type with
  | 0 => some rainbow
  | 1 => some transgender
  | 2 => some nonbinary
  | 3 => some lesbian
  | 4 => some gay
  | 5 => some pansexual
  | 6 => some bisexual
  | 7 => some gender_fluid
  | 8 => some asexual
  | 9 => some unlabeled
  | _ => none

/-- The library function `lrintf` in the default rounding mode, on exact
values: the nearest integer, a tie going to the even neighbour. -/
def lrintf (x : K) : Int :=
  if x - (⌊x⌋ : K) < 1 / 2 then ⌊x⌋
  else if 1 / 2 < x - (⌊x⌋ : K) then ⌊x⌋ + 1
  else if ⌊x⌋ % 2 = 0 then ⌊x⌋
  else ⌊x⌋ + 1

/-- Storing a `long` in a `uint8_t` channel: reduction modulo 256. -/
def to_uint8 (v : Int) : Nat := (v % 256).toNat

/-- The conversion of a floating value to `int`: truncation toward zero. -/
def double_to_int (x : K) : Int := if 0 ≤ x then ⌊x⌋ else ⌈x⌉

/-- The conversion of an `int` to `unsigned int`: reduction modulo `2^32`. -/
def int_to_unsigned (v : Int) : Nat := (v % 4294967296).toNat

/-- The red channel of a packed color, `(color & 0xff0000) >> 16`. -/
def hex_red (color : Nat) : Nat := (color &&& 0xff0000) >>> 16

/-- The green channel of a packed color, `(color & 0x00ff00) >> 8`. -/
def hex_green (color : Nat) : Nat := (color &&& 0x00ff00) >>> 8

/-- The blue channel of a packed color, `(color & 0x0000ff) >> 0`. -/
def hex_blue (color : Nat) : Nat := (color &&& 0x0000ff) >>> 0

/-- The function `mix_colors`: the value written to `*output_color`. -/
def mix_colors (pow : K → K → K) (color1 color2 : Nat) (balance factor : K) : color_t :=
  let red_1 := hex_red color1
  let green_1 := hex_green color1
  let blue_1 := hex_blue color1
  let red_2 := hex_red color2
  let green_2 := hex_green color2
  let blue_2 := hex_blue color2
  let balance := pow balance factor
  { red := to_uint8 (lrintf ((red_1 : K) * balance + (red_2 : K) * (1 - balance)))
    green := to_uint8 (lrintf ((green_1 : K) * balance + (green_2 : K) * (1 - balance)))
    blue := to_uint8 (lrintf ((blue_1 : K) * balance + (blue_2 : K) * (1 - balance))) }

/-- The loop `while (theta < 0) theta += 2.0f * (float)M_PI;`, run for at most
`fuel` iterations. -/
def theta_add_loop (two_pi : K) : Nat → K → K
  | 0, theta => theta
  | fuel + 1, theta =>
    if theta < 0 then theta_add_loop two_pi fuel (theta + two_pi) else theta

/-- The loop `while (theta >= 2.0f * (float)M_PI) theta -= 2.0f * (float)M_PI;`,
run for at most `fuel` iterations. -/
def theta_sub_loop (two_pi : K) : Nat → K → K
  | 0, theta => theta
  | fuel + 1, theta =>
    if theta ≥ two_pi then theta_sub_loop two_pi fuel (theta - two_pi) else theta

/-- The two loops under "Get theta in range" on exact values, each given the
number of iterations it performs on exact values when `M_PI` is positive. On
`float` values the loops need not end (`theta_in_range_float`). -/
def theta_in_range (M_PI theta : K) : K :=
  let two_pi := 2 * M_PI
  let theta1 := theta_add_loop two_pi ⌈-theta / two_pi⌉.toNat theta
  theta_sub_loop two_pi ⌊theta1 / two_pi⌋.toNat theta1

/-- The function `get_color_rainbow`: the value written to `*color`. -/
def get_color_rainbow (sin : K → K) (M_PI : K) (theta : K) : color_t :=
  let theta := theta_in_range M_PI theta
  { red := to_uint8 (lrintf ((1 * (1 / 2 + 1 / 2 * sin (theta + 0))) * 255))
    green := to_uint8 (lrintf ((1 * (1 / 2 + 1 / 2 * sin (theta + 2 * M_PI / 3))) * 255))
    blue := to_uint8 (lrintf ((1 * (1 / 2 + 1 / 2 * sin (theta + 4 * M_PI / 3))) * 255)) }

/-- The `for` loop of `get_color_stripes` from index `i` with `remaining`
iterations left; `color` is the caller's value, returned untouched when no
stripe is found. -/
def get_color_stripes_loop (pow : K → K → K) (M_PI : K) (color_pattern : color_pattern_t K)
    (theta : K) (color : color_t) : Nat → Nat → color_t
  | 0, _ => color
  | remaining + 1, i =>
    let stripe_size := (2 * M_PI) / (color_pattern.stripes_count : K)
    let min_theta := (i : K) * stripe_size
    let max_theta := ((i : K) + 1) * stripe_size
    if min_theta ≤ theta ∧ max_theta > theta then
      let balance := 1 - ((theta - min_theta) / stripe_size)
      mix_colors pow
        (color_pattern.stripes_colors.getD i 0)
        (NEXT_CYCLIC_ELEMENT color_pattern.stripes_colors i color_pattern.stripes_count)
        balance
        color_pattern.factor
    else
      get_color_stripes_loop pow M_PI color_pattern theta color remaining (i + 1)

/-- The function `get_color_stripes`: the value of `*color` on return. -/
def get_color_stripes (pow : K → K → K) (M_PI : K) (color_pattern : color_pattern_t K)
    (theta : K) (color : color_t) : color_t :=
  let theta := theta_in_range M_PI theta
  get_color_stripes_loop pow M_PI color_pattern theta color color_pattern.stripes_count 0

/-- The call `pattern->get_color(&pattern->color_pattern, theta, &color)`. -/
def call_get_color (L : Libc K) (pattern : pattern_t K) (theta : K) (color : color_t) : color_t :=
  match pattern.get_color with
  | .get_color_rainbow => get_color_rainbow L.sin L.M_PI theta
  | .get_color_stripes => get_color_stripes L.pow L.M_PI pattern.color_pattern theta color

/-- The phase `theta` that `print_color` computes in the 24-bit case. -/
def print_color_theta (L : Libc K) (char_index line_index : Int) (freq_h freq_v offx : K)
    (rand_offset : Int) : K :=
  (char_index : K) * freq_h / 5 + (line_index : K) * freq_v
    + (offx + 2 * (rand_offset : K) / L.RAND_MAX) * L.M_PI

/-- The index `ncc` that `print_color` computes in the palette case:
`offx * codes_count + (int)(char_index * freq_h + line_index * freq_v)`,
converted to `int` by the assignment. -/
def print_color_ncc (pattern : pattern_t K) (char_index line_index : Int)
    (freq_h freq_v offx : K) : Int :=
  double_to_int (offx * (pattern.ansii_pattern.codes_count : K)
    + ((double_to_int ((char_index : K) * freq_h + (line_index : K) * freq_v) : Int) : K))

/-- The array position `(rand_offset + ncc) % codes_count` of `print_color`:
the `int` sum is converted to `unsigned int` before the remainder is taken. -/
def print_color_position (pattern : pattern_t K) (rand_offset ncc : Int) : Nat :=
  int_to_unsigned (rand_offset + ncc) % pattern.ansii_pattern.codes_count

/-- The function `print_color`: the escape sequences it writes, or `none` when
it ends the process through `exit(1)` (the `default` case). The parameter `cc`
is received by value, so the assignment `cc = ncc` is not visible to the
caller. -/
def print_color (L : Libc K) (pattern : pattern_t K) (color_type : color_type_t)
    (char_index line_index : Int) (freq_h freq_v offx : K) (rand_offset cc : Int) :
    Option (List Out) :=
  match color_type with
  | .COLOR_TYPE_24_BIT =>
    let theta := print_color_theta L char_index line_index freq_h freq_v offx rand_offset
    let color := call_get_color L pattern theta { red := 0, green := 0, blue := 0 }
    some [Out.rgb color.red color.green color.blue]
  | .COLOR_TYPE_ANSII =>
    let ncc := print_color_ncc pattern char_index line_index freq_h freq_v offx
    if cc ≠ ncc then
      some [Out.ansi (pattern.ansii_pattern.ansii_codes.getD
        (print_color_position pattern rand_offset ncc) 0)]
    else
      some []
  | _ => none

/-! ## The function `main` -/

/-- The values `main` holds once the command line is parsed: `flag_type` (`-f`),
`freq_h` (`-h`), `freq_v` (`-v`), `print_colors` (`isatty` or `-F`), whether
`-b` was given (it sets `color_type` to `COLOR_TYPE_24_BIT`), `rand_offset`
(0, or `rand()` under `-r`) and `offx` (from the clock). -/
structure Config (K : Type) where
  flag_type : Int
  freq_h : K
  freq_v : K
  print_colors : Bool
  bit24 : Bool
  rand_offset : Int
  offx : K

/-- The variable `color_type` of `main`: `COLOR_TYPE_ANSII` unless `-b` set it to
`COLOR_TYPE_24_BIT`. -/
def Config.color_type (cfg : Config K) : color_type_t :=
  if cfg.bit24 then .COLOR_TYPE_24_BIT else .COLOR_TYPE_ANSII

/-- The variables of `main` that live across input streams: `cc`, `char_index`
and `line_index`. -/
structure main_vars where
  cc : Int
  char_index : Int
  line_index : Int
  deriving DecidableEq

/-- The variables of `main` during one input stream: those of `main_vars` and
the `escape_state` declared in the body of the `for` loop. -/
structure loop_vars where
  cc : Int
  char_index : Int
  line_index : Int
  escape_state : escape_state_t
  deriving DecidableEq

/-- The statement `if (print_colors) { ... }` of the `while` loop: the new
variables and what is written, or `none` when `print_color` ends the process. -/
def handle_colors (L : Libc K) (cfg : Config K) (pattern : pattern_t K) (s : loop_vars)
    (current_char : Nat) : Option (loop_vars × List Out) :=
  if cfg.print_colors then
    let escape_state := find_escape_sequences current_char s.escape_state
    if escape_state = .ESCAPE_STATE_OUT then
      if current_char = 10 then
        some ({ s with escape_state := escape_state,
                       line_index := s.line_index + 1, char_index := 0 }, [])
      else
        let char_index := s.char_index + L.wcwidth current_char
        match print_color L pattern cfg.color_type char_index s.line_index
            cfg.freq_h cfg.freq_v cfg.offx cfg.rand_offset s.cc with
        | none => none
        | some out =>
          some ({ s with escape_state := escape_state, char_index := char_index }, out)
    else
      some ({ s with escape_state := escape_state }, [])
  else
    some (s, [])

/-- The statement `if (escape_state == ESCAPE_STATE_LAST) { print_color(...) }`
that follows `putwchar`. -/
def after_putwchar (L : Libc K) (cfg : Config K) (pattern : pattern_t K) (s : loop_vars) :
    Option (List Out) :=
  if s.escape_state = .ESCAPE_STATE_LAST then
    print_color L pattern cfg.color_type s.char_index s.line_index
      cfg.freq_h cfg.freq_v cfg.offx cfg.rand_offset s.cc
  else
    some []

/-- One iteration of the `while` loop for the character `current_char`: what is
written, and the new variables (`none` when the process ended in `exit(1)`). -/
def loop_body (L : Libc K) (cfg : Config K) (pattern : pattern_t K) (s : loop_vars)
    (current_char : Nat) : List Out × Option loop_vars :=
  match handle_colors L cfg pattern s current_char with
  | none => ([], none)
  | some (s1, out1) =>
    match after_putwchar L cfg pattern s1 with
    | none => (out1 ++ [Out.putwchar current_char], none)
    | some out2 => (out1 ++ [Out.putwchar current_char] ++ out2, some s1)

/-- The loop `while ((current_char = this_file_read_wchar(f)) != WEOF)` over the
characters of one stream. -/
def read_loop (L : Libc K) (cfg : Config K) (pattern : pattern_t K) :
    loop_vars → List Nat → List Out × Option loop_vars
  | s, [] => ([], some s)
  | s, current_char :: rest =>
    match loop_body L cfg pattern s current_char with
    | (out, none) => (out, none)
    | (out, some s1) =>
      let r := read_loop L cfg pattern s1 rest
      (out ++ r.1, r.2)

/-- The body of the `for` loop of `main` for one input stream: `escape_state`
starts as `ESCAPE_STATE_OUT`, the characters are processed, the reset escape
is written when `print_colors` holds, and `cc` is set to `-1`. -/
def process_file (L : Libc K) (cfg : Config K) (pattern : pattern_t K) (v : main_vars)
    (input : List Nat) : List Out × Option main_vars :=
  match read_loop L cfg pattern
      { cc := v.cc, char_index := v.char_index, line_index := v.line_index,
        escape_state := .ESCAPE_STATE_OUT } input with
  | (out, none) => (out, none)
  | (out, some s) =>
    (if cfg.print_colors then out ++ [Out.reset] else out,
      some { cc := -1, char_index := s.char_index, line_index := s.line_index })

/-- The loop `for (char** filename = inputs; ...)` of `main`: the output written
for each stream, in order, and the variables at the end (`none` when the
process ended in `exit(1)`). -/
def process_files (L : Libc K) (cfg : Config K) (pattern : pattern_t K) :
    main_vars → List (List Nat) → List (List Out) × Option main_vars
  | v, [] => ([], some v)
  | v, input :: rest =>
    match process_file L cfg pattern v input with
    | (out, none) => ([out], none)
    | (out, some v1) =>
      let r := process_files L cfg pattern v1 rest
      (out :: r.1, r.2)

/-- How a run of `main` ends: with an exit status and the text written to
standard output, or in the render loop holding a `NULL` pattern. -/
inductive main_result
  | exited (status : Nat) (stdout : List Out)
  | null_pattern
  deriving DecidableEq

/-- The function `main` from the flag validation on, for opened input streams:
the validation of `flag_type`, `get_pattern`, and the loop over the streams
with `cc = -1`, `char_index = 0`, `line_index = 0`. -/
def main (L : Libc K) (cfg : Config K) (inputs : List (List Nat)) : main_result :=
  if cfg.flag_type ≤ FLAG_TYPE_INVALID ∨ cfg.flag_type ≥ FLAG_TYPE_END then
    .exited 1 []
  else
    match (get_pattern cfg.flag_type : Option (pattern_t K)) with
    | none => .null_pattern
    | some pattern =>
      match process_files L cfg pattern { cc := -1, char_index := 0, line_index := 0 }
          inputs with
      | (outs, none) => .exited 1 outs.flatten
      | (outs, some _) => .exited 0 outs.flatten

/-! ## Reading the output -/

/-- The characters written with `putwchar`, in order. -/
def chars_written : List Out → List Nat
  | [] => []
  | Out.putwchar c :: rest => c :: chars_written rest
  | _ :: rest => chars_written rest

/-- The transition function as the specification words it: rule 1 (the escape
character), rule 2 (state `IN`), rule 3 (`OUT` or `LAST`). -/
def spec_next_state (c : Nat) (s : escape_state_t) : escape_state_t :=
  if c = 0x1B then escape_state_t.ESCAPE_STATE_IN
  else
    match s with
    | .ESCAPE_STATE_IN =>
      if (0x61 ≤ c ∧ c ≤ 0x7A) ∨ (0x41 ≤ c ∧ c ≤ 0x5A) then escape_state_t.ESCAPE_STATE_LAST
      else escape_state_t.ESCAPE_STATE_IN
    | .ESCAPE_STATE_OUT => escape_state_t.ESCAPE_STATE_OUT
    | .ESCAPE_STATE_LAST => escape_state_t.ESCAPE_STATE_OUT

end Engine

/-- What is stated of one output channel `out` of `mix_colors` blending the
input channels `x1` and `x2` with effective balance `e`: it is the rounded
blend, stored without wrapping; it is within one half of the exact blend; it
lies between the two inputs and within 0..255. -/
def channel_in_range {K : Type} [LinearOrderedField K] [FloorRing K]
    (x1 x2 : Nat) (e : K) (out : Nat) : Prop :=
  (out : Int) = lrintf ((x1 : K) * e + (x2 : K) * (1 - e))
    ∧ |(out : K) - ((x1 : K) * e + (x2 : K) * (1 - e))| ≤ 1 / 2
    ∧ min x1 x2 ≤ out ∧ out ≤ max x1 x2 ∧ out ≤ 255

/-- The palette index as the specification words it:
`floor(baseOffset * codesCount + column * freqH + row * freqV)`. -/
def spec_palette_index {K : Type} [LinearOrderedField K] [FloorRing K]
    (codes_count : Nat) (column row : Int) (freq_h freq_v base_offset : K) : Int :=
  ⌊base_offset * (codes_count : K) + (column : K) * freq_h + (row : K) * freq_v⌋

/-- Truncation toward zero as the amended palette index words it: the floor of
a non-negative value, the ceiling of a negative one. -/
def spec_trunc {K : Type} [LinearOrderedField K] [FloorRing K] (x : K) : Int :=
  if x < 0 then ⌈x⌉ else ⌊x⌋

/-- The palette position as the specification words it:
`(randomOffset + index) mod codesCount`, the non-negative remainder. -/
def spec_palette_position (codes_count : Nat) (random_offset index : Int) : Nat :=
  ((random_offset + index) % (codes_count : Int)).toNat

/-- The three blends of `mix_colors` before `lrintf` rounds them: per channel
`c1 * e + c2 * (1 - e)` with `e = pow balance factor`. -/
def mix_colors_unrounded {K : Type} [LinearOrderedField K]
    (pow : K → K → K) (color1 color2 : Nat) (balance factor : K) : K × K × K :=
  let balance := pow balance factor
  ((hex_red color1 : K) * balance + (hex_red color2 : K) * (1 - balance),
    (hex_green color1 : K) * balance + (hex_green color2 : K) * (1 - balance),
    (hex_blue color1 : K) * balance + (hex_blue color2 : K) * (1 - balance))

/-- The local `stripe_size` of `get_color_stripes`: the width of one arc. -/
def stripe_size {K : Type} [LinearOrderedField K] (M_PI : K)
    (color_pattern : color_pattern_t K) : K :=
  (2 * M_PI) / (color_pattern.stripes_count : K)

/-- The phase of true-color mode as the specification words it (section 4.3):
`column * freqH / 5 + row * freqV + (baseOffset + 2 * randomOffset / RANDOM_MAX) * pi`. -/
def spec_phase {K : Type} [LinearOrderedField K] (L : Libc K) (cfg : Config K)
    (column row : Int) : K :=
  (column : K) * cfg.freq_h / 5 + (row : K) * cfg.freq_v
    + (cfg.offx + 2 * (cfg.rand_offset : K) / L.RAND_MAX) * L.M_PI

/-- The true-color escape of a column and row as the specification words it
(sections 4.1, 4.3, 4.4): `ESC[38;2;r;g;bm` where `(r, g, b)` is hue rotation
(`get_color_rainbow`) of the phase of `spec_phase` for a pattern that selects
hue rotation, and stripe interpolation (`get_color_stripes`) of that phase
over the pattern's stripes for a pattern that selects it (the color variable
starting as `{0, 0, 0}`). -/
def spec_truecolor_escape {K : Type} [LinearOrderedField K] [FloorRing K]
    (L : Libc K) (cfg : Config K) (pattern : pattern_t K) (column row : Int) : Out :=
  match pattern.get_color with
  | .get_color_rainbow =>
    Out.rgb (get_color_rainbow L.sin L.M_PI (spec_phase L cfg column row)).red
      (get_color_rainbow L.sin L.M_PI (spec_phase L cfg column row)).green
      (get_color_rainbow L.sin L.M_PI (spec_phase L cfg column row)).blue
  | .get_color_stripes =>
    Out.rgb
      (get_color_stripes L.pow L.M_PI pattern.color_pattern
        (spec_phase L cfg column row) { red := 0, green := 0, blue := 0 }).red
      (get_color_stripes L.pow L.M_PI pattern.color_pattern
        (spec_phase L cfg column row) { red := 0, green := 0, blue := 0 }).green
      (get_color_stripes L.pow L.M_PI pattern.color_pattern
        (spec_phase L cfg column row) { red := 0, green := 0, blue := 0 }).blue

/-- What palette mode writes for a computed index when the index last emitted
is taken to be -1: the palette escape of that index when it differs from -1,
nothing otherwise. -/
def spec_palette_escape {K : Type} [LinearOrderedField K] [FloorRing K]
    (cfg : Config K) (pattern : pattern_t K) (column row : Int) : List Out :=
  if print_color_ncc pattern column row cfg.freq_h cfg.freq_v cfg.offx ≠ -1 then
    [Out.ansi (pattern.ansii_pattern.ansii_codes.getD
      (print_color_position pattern cfg.rand_offset
        (print_color_ncc pattern column row cfg.freq_h cfg.freq_v cfg.offx)) 0)]
  else
    []

/-! ## Binary32 arithmetic of the phase loops

The embedding above takes arithmetic as exact. The variable `theta` of
`get_color_rainbow` and `get_color_stripes` is a `float`, and each
`theta += ...` / `theta -= ...` rounds its result to binary32. The definitions
below run the two loops with that rounding, on rational numbers (every
binary32 number is one). -/

/-- Rounding of an exact value to the nearest binary32 number, a tie going to
the even significand, for values of normal magnitude (`2^-126 <= |x| < 2^128`):
the nearest multiple of `2^(e - 23)`, where `2^e <= |x| < 2^(e + 1)`. -/
def to_float (x : ℚ) : ℚ :=
  if x = 0 then 0
  else ((lrintf (x / (2 : ℚ) ^ (Int.log 2 |x| - 23)) : Int) : ℚ)
    * (2 : ℚ) ^ (Int.log 2 |x| - 23)

/-- The value of `2.0f * (float)M_PI`: `(float)M_PI` is the binary32 number
`13176795 / 2^22` (3.1415927410125732...), and doubling it is exact. -/
def FLOAT_TWO_PI : ℚ := 2 * (13176795 / 4194304)

/-- The loop `while (theta < 0) theta += 2.0f * (float)M_PI;` in binary32
arithmetic: `none` when `fuel` iterations do not end it. -/
def theta_add_loop_float : Nat → ℚ → Option ℚ
  | 0, theta => if theta < 0 then none else some theta
  | fuel + 1, theta =>
    if theta < 0 then theta_add_loop_float fuel (to_float (theta + FLOAT_TWO_PI))
    else some theta

/-- The loop `while (theta >= 2.0f * (float)M_PI) theta -= 2.0f * (float)M_PI;`
in binary32 arithmetic: `none` when `fuel` iterations do not end it. -/
def theta_sub_loop_float : Nat → ℚ → Option ℚ
  | 0, theta => if theta ≥ FLOAT_TWO_PI then none else some theta
  | fuel + 1, theta =>
    if theta ≥ FLOAT_TWO_PI then theta_sub_loop_float fuel (to_float (theta - FLOAT_TWO_PI))
    else some theta

/-- The two loops under "Get theta in range" in binary32 arithmetic, each with
at most `fuel` iterations: `none` when one of them does not end. -/
def theta_in_range_float (fuel : Nat) (theta : ℚ) : Option ℚ :=
  match theta_add_loop_float fuel theta with
  | none => none
  | some theta1 => theta_sub_loop_float fuel theta1

/-- The value `print_color` stores in its `float theta`: the value of the
`double` expression (taken as exact) converted to binary32. -/
def print_color_theta_float (L : Libc ℚ) (char_index line_index : Int)
    (freq_h freq_v offx : ℚ) (rand_offset : Int) : ℚ :=
  to_float (print_color_theta L char_index line_index freq_h freq_v offx rand_offset)

/-! ## Concrete environments for evaluation -/

/-- The display width of an ASCII character as `wcwidth` reports it: 0 for the
null character, -1 for the other control characters, 1 for printable ones. -/
def wcwidth_ascii (c : Nat) : Int :=
  if c = 0 then 0 else if c < 32 ∨ c = 127 then -1 else 1

/-- A C library over the rationals on which the palette path of the engine can
be evaluated: ASCII widths, `pow` exact on natural exponents, and rational
stand-ins for `sin` and `M_PI`, which the palette path does not use. -/
def libc_eval : Libc ℚ where
  wcwidth := wcwidth_ascii
  pow := fun b e => b ^ e.floor.toNat
  sin := fun _ => 0
  M_PI := 355 / 113
  RAND_MAX := 2147483647

/-- A configuration for evaluation: rainbow pattern, palette mode, coloring
active, frequencies (0, 0), no random offset, base offset 0. -/
def cfg_flat : Config ℚ where
  flag_type := 0
  freq_h := 0
  freq_v := 0
  print_colors := true
  bit24 := false
  rand_offset := 0
  offx := 0

/-- A configuration for evaluation: as `cfg_flat` with horizontal frequency 1
(the command line `-F -h 1 -v 0`). -/
def cfg_step : Config ℚ where
  flag_type := 0
  freq_h := 1
  freq_v := 0
  print_colors := true
  bit24 := false
  rand_offset := 0
  offx := 0

/-- A configuration for evaluation: rainbow pattern, 24-bit mode, coloring
active, the default frequencies (0.23, 0.1), no random offset, base offset 0. -/
def cfg_24bit : Config ℚ where
  flag_type := 0
  freq_h := 23 / 100
  freq_v := 1 / 10
  print_colors := true
  bit24 := true
  rand_offset := 0
  offx := 0

/-- A configuration for evaluation: coloring not active (standard output is not
a terminal and `-F` is not given), everything else as by default. -/
def cfg_plain : Config ℚ where
  flag_type := 0
  freq_h := 23 / 100
  freq_v := 1 / 10
  print_colors := false
  bit24 := false
  rand_offset := 0
  offx := 0

/-- A configuration for evaluation: the command line `-F -b -h 1e9` at a
moment when the base offset is 0 (24-bit mode, horizontal frequency `10^9`). -/
def cfg_huge : Config ℚ where
  flag_type := 0
  freq_h := 1000000000
  freq_v := 1 / 10
  print_colors := true
  bit24 := true
  rand_offset := 0
  offx := 0

/-- A configuration for evaluation: the command line `-F -b -h -1e9` at a
moment when the base offset is 0 (24-bit mode, horizontal frequency `-10^9`). -/
def cfg_huge_neg : Config ℚ where
  flag_type := 0
  freq_h := -1000000000
  freq_v := 1 / 10
  print_colors := true
  bit24 := true
  rand_offset := 0
  offx := 0

/-- The variables of `main` before the first stream. -/
def main_vars_init : main_vars := { cc := -1, char_index := 0, line_index := 0 }

/-! # Theorems -/

section EngineFacts

/-! ## The escape state machine -/

theorem IS_LETTER_iff (c : Nat) :
    IS_LETTER c = true ↔ (0x61 ≤ c ∧ c ≤ 0x7A) ∨ (0x41 ≤ c ∧ c ≤ 0x5A) := by
  simp [IS_LETTER]

/-- C2: for every character and every current state, `find_escape_sequences`
computes the transition function of the specification: the escape character
leads to `IN` from any state; otherwise from `IN` a letter leads to `LAST` and
any other character stays `IN`; otherwise (`OUT` or `LAST`) the next state is
`OUT`. -/
theorem find_escape_sequences_eq_spec (c : Nat) (s : escape_state_t) :
    find_escape_sequences c s = spec_next_state c s := by
  unfold find_escape_sequences spec_next_state
  by_cases h27 : c = 27
  · simp [h27]
  · have h1b : ¬ c = 0x1B := h27
    by_cases hl : IS_LETTER c = true
    · cases s <;> simp [h27, h1b, hl, (IS_LETTER_iff c).symm]
    · cases s <;> simp [h27, h1b, hl, (IS_LETTER_iff c).symm]

/-! ## The pattern catalog -/

theorem get_pattern_eq_none_iff {K : Type} [LinearOrderedField K] (ft : Int) :
    (get_pattern ft : Option (pattern_t K)) = none ↔ (ft < 0 ∨ 9 < ft) := by
  constructor
  · intro h
    by_contra hcon
    have h0 : 0 ≤ ft := by omega
    have h9 : ft ≤ 9 := by omega
    interval_cases ft <;> simp [get_pattern] at h
  · intro h
    unfold get_pattern
    split <;> first | rfl | omega

/-! ## The phase loops: enough iterations -/

/-- With enough iterations the first loop ends with its condition false. -/
theorem theta_add_loop_nonneg {K : Type} [LinearOrderedField K] (two_pi : K)
    (fuel : Nat) (theta : K)
    (h : -theta ≤ (fuel : K) * two_pi) : 0 ≤ theta_add_loop two_pi fuel theta := by
  induction fuel generalizing theta with
  | zero =>
    simp only [Nat.cast_zero, zero_mul] at h
    simp only [theta_add_loop]
    linarith
  | succ n ih =>
    simp only [theta_add_loop]
    by_cases hneg : theta < 0
    · rw [if_pos hneg]
      apply ih
      push_cast at h
      linarith
    · rw [if_neg hneg]
      exact not_lt.1 hneg

/-- With enough iterations the second loop ends with its condition false, and
it keeps a non-negative phase non-negative. -/
theorem theta_sub_loop_lt {K : Type} [LinearOrderedField K] (two_pi : K)
    (fuel : Nat) (theta : K)
    (h0 : 0 ≤ theta) (h : theta < ((fuel : K) + 1) * two_pi) :
    0 ≤ theta_sub_loop two_pi fuel theta ∧ theta_sub_loop two_pi fuel theta < two_pi := by
  induction fuel generalizing theta with
  | zero =>
    simp only [Nat.cast_zero, zero_add, one_mul] at h
    simp only [theta_sub_loop]
    exact ⟨h0, h⟩
  | succ n ih =>
    simp only [theta_sub_loop]
    by_cases hge : theta ≥ two_pi
    · rw [if_pos hge]
      apply ih
      · linarith
      · push_cast at h
        linarith
    · rw [if_neg hge]
      exact ⟨h0, not_le.1 hge⟩

/-! ## What the loop writes -/

variable {K : Type} [LinearOrderedField K] [FloorRing K]

theorem chars_written_append (a b : List Out) :
    chars_written (a ++ b) = chars_written a ++ chars_written b := by
  induction a with
  | nil => rfl
  | cons x xs ih => cases x <;> simp [chars_written, ih]

theorem chars_written_map_putwchar (xs : List Nat) :
    chars_written (xs.map Out.putwchar) = xs := by
  induction xs with
  | nil => rfl
  | cons x xs ih => simp [chars_written, ih]

/-- With the color type `main` selects, `print_color` returns, and what it
writes holds no character and no reset escape. -/
theorem print_color_main (L : Libc K) (cfg : Config K) (pattern : pattern_t K)
    (ci li cc : Int) :
    ∃ o, print_color L pattern cfg.color_type ci li cfg.freq_h cfg.freq_v cfg.offx
        cfg.rand_offset cc = some o ∧ chars_written o = [] ∧ Out.reset ∉ o := by
  unfold Config.color_type print_color
  by_cases hb : cfg.bit24 = true
  · simp [hb, chars_written]
  · simp only [hb, if_false, Bool.false_eq_true]
    split <;> simp [chars_written]

/-- Every iteration of the loop writes its character once, between two runs of
engine escapes, and continues. -/
theorem loop_body_shape (L : Libc K) (cfg : Config K) (pattern : pattern_t K)
    (s : loop_vars) (c : Nat) :
    ∃ before after s1, loop_body L cfg pattern s c
        = (before ++ Out.putwchar c :: after, some s1)
      ∧ chars_written before = [] ∧ chars_written after = []
      ∧ Out.reset ∉ before ∧ Out.reset ∉ after := by
  have hh : ∃ s1 o1, handle_colors L cfg pattern s c = some (s1, o1)
      ∧ chars_written o1 = [] ∧ Out.reset ∉ o1 := by
    unfold handle_colors
    by_cases hc : cfg.print_colors = true
    · simp only [hc, if_true]
      by_cases ho : find_escape_sequences c s.escape_state = .ESCAPE_STATE_OUT
      · simp only [ho, if_true]
        by_cases hn : c = 10
        · simp only [hn, if_true]
          exact ⟨_, [], rfl, rfl, by simp⟩
        · simp only [hn, if_false]
          obtain ⟨o, ho1, ho2, ho3⟩ := print_color_main L cfg pattern
            (s.char_index + L.wcwidth c) s.line_index s.cc
          rw [ho1]
          exact ⟨_, o, rfl, ho2, ho3⟩
      · simp only [ho, if_false]
        exact ⟨_, [], rfl, rfl, by simp⟩
    · simp only [hc, if_false, Bool.false_eq_true]
      exact ⟨_, [], rfl, rfl, by simp⟩
  obtain ⟨s1, o1, h1, h2, h3⟩ := hh
  have ha : ∃ o2, after_putwchar L cfg pattern s1 = some o2
      ∧ chars_written o2 = [] ∧ Out.reset ∉ o2 := by
    unfold after_putwchar
    by_cases hl : s1.escape_state = .ESCAPE_STATE_LAST
    · simp only [hl, if_true]
      exact print_color_main L cfg pattern s1.char_index s1.line_index s1.cc
    · simp [hl, chars_written]
  obtain ⟨o2, h4, h5, h6⟩ := ha
  refine ⟨o1, o2, s1, ?_, h2, h5, h3, h6⟩
  simp [loop_body, h1, h4]

/-- The loop over a stream returns, and writes the characters of the stream in
order, with no reset escape. -/
theorem read_loop_shape (L : Libc K) (cfg : Config K) (pattern : pattern_t K)
    (input : List Nat) (s : loop_vars) :
    ∃ out s1, read_loop L cfg pattern s input = (out, some s1)
      ∧ chars_written out = input ∧ Out.reset ∉ out := by
  induction input generalizing s with
  | nil => exact ⟨[], s, rfl, rfl, by simp⟩
  | cons c rest ih =>
    obtain ⟨before, after, s1, hb, h1, h2, h3, h4⟩ := loop_body_shape L cfg pattern s c
    obtain ⟨out, s2, hr, h5, h6⟩ := ih s1
    refine ⟨(before ++ Out.putwchar c :: after) ++ out, s2, ?_, ?_, ?_⟩
    · simp [read_loop, hb, hr]
    · simp [chars_written_append, chars_written, h1, h2, h5]
    · simp [h3, h4, h6]

/-- The loop over a concatenation is the loop over the first part followed by
the loop over the second part from the variables the first part left. -/
theorem read_loop_append (L : Libc K) (cfg : Config K) (pattern : pattern_t K)
    (xs ys : List Nat) (s s1 : loop_vars) (out : List Out)
    (h : read_loop L cfg pattern s xs = (out, some s1)) :
    read_loop L cfg pattern s (xs ++ ys)
      = (out ++ (read_loop L cfg pattern s1 ys).1, (read_loop L cfg pattern s1 ys).2) := by
  induction xs generalizing s out with
  | nil =>
    simp only [read_loop, Prod.mk.injEq, Option.some.injEq] at h
    obtain ⟨h1, h2⟩ := h
    subst h1 h2
    simp
  | cons c rest ih =>
    obtain ⟨before, after, s2, hb, -⟩ := loop_body_shape L cfg pattern s c
    obtain ⟨o2, s3, hr, -⟩ := read_loop_shape L cfg pattern rest s2
    simp only [read_loop, hb, hr, Prod.mk.injEq, Option.some.injEq] at h
    obtain ⟨h1, h2⟩ := h
    subst h1 h2
    simp [read_loop, hb, ih s2 o2 hr]

/-- With coloring active, a character classified `IN` is written alone and only
the escape state changes. -/
theorem loop_body_in (L : Libc K) (cfg : Config K) (pattern : pattern_t K)
    (s : loop_vars) (c : Nat) (hc : cfg.print_colors = true)
    (h : find_escape_sequences c s.escape_state = .ESCAPE_STATE_IN) :
    loop_body L cfg pattern s c
      = ([Out.putwchar c], some { s with escape_state := .ESCAPE_STATE_IN }) := by
  simp [loop_body, handle_colors, after_putwchar, hc, h]

/-- With coloring active, a character classified `LAST` is written first, the
engine escapes follow it, and only the escape state changes. -/
theorem loop_body_last (L : Libc K) (cfg : Config K) (pattern : pattern_t K)
    (s : loop_vars) (c : Nat) (hc : cfg.print_colors = true)
    (h : find_escape_sequences c s.escape_state = .ESCAPE_STATE_LAST) :
    ∃ after, loop_body L cfg pattern s c
        = (Out.putwchar c :: after, some { s with escape_state := .ESCAPE_STATE_LAST })
      ∧ chars_written after = [] ∧ Out.reset ∉ after := by
  obtain ⟨o, ho1, ho2, ho3⟩ := print_color_main L cfg pattern s.char_index s.line_index s.cc
  refine ⟨o, ?_, ho2, ho3⟩
  simp [loop_body, handle_colors, after_putwchar, hc, h, ho1]

/-- With coloring active, from state `IN` a run of non-letters is written
verbatim and leaves the state `IN`. -/
theorem read_loop_inside (L : Libc K) (cfg : Config K) (pattern : pattern_t K)
    (mid : List Nat) (s : loop_vars) (hc : cfg.print_colors = true)
    (hs : s.escape_state = .ESCAPE_STATE_IN) (hmid : ∀ m ∈ mid, IS_LETTER m = false) :
    read_loop L cfg pattern s mid = (mid.map Out.putwchar, some s) := by
  induction mid with
  | nil => rfl
  | cons m rest ih =>
    have hm : IS_LETTER m = false := hmid m (by simp)
    have hf : find_escape_sequences m s.escape_state = .ESCAPE_STATE_IN := by
      unfold find_escape_sequences
      by_cases h27 : m = 27
      · simp [h27]
      · simp [h27, hs, hm]
    have hs1 : ({ s with escape_state := .ESCAPE_STATE_IN } : loop_vars) = s := by
      cases s
      simp_all
    have hrest := ih (fun x hx => hmid x (by simp [hx]))
    simp [read_loop, loop_body_in L cfg pattern s m hc hf, hs1, hrest]

/-- With coloring active, a foreign escape sequence (the escape character, a
run of non-letters, a letter) is written verbatim with nothing in between;
engine escapes come only after the letter. -/
theorem read_loop_foreign (L : Libc K) (cfg : Config K) (pattern : pattern_t K)
    (mid : List Nat) (l : Nat) (s : loop_vars) (hc : cfg.print_colors = true)
    (hmid : ∀ m ∈ mid, IS_LETTER m = false) (hl : IS_LETTER l = true) :
    ∃ after, read_loop L cfg pattern s (27 :: (mid ++ [l]))
        = (Out.putwchar 27 :: (mid.map Out.putwchar ++ Out.putwchar l :: after),
            some { s with escape_state := .ESCAPE_STATE_LAST })
      ∧ chars_written after = [] ∧ Out.reset ∉ after := by
  have h27 : find_escape_sequences 27 s.escape_state = .ESCAPE_STATE_IN := by
    simp [find_escape_sequences]
  have hl27 : l ≠ 27 := by
    intro h
    rw [h] at hl
    simp [IS_LETTER] at hl
  have hlast : find_escape_sequences l
      ({ s with escape_state := .ESCAPE_STATE_IN } : loop_vars).escape_state
        = .ESCAPE_STATE_LAST := by
    simp [find_escape_sequences, hl27, hl]
  obtain ⟨after, ha, h1, h2⟩ := loop_body_last L cfg pattern
    { s with escape_state := .ESCAPE_STATE_IN } l hc hlast
  have hin := read_loop_inside L cfg pattern mid
    { s with escape_state := .ESCAPE_STATE_IN } hc rfl hmid
  refine ⟨after, ?_, h1, h2⟩
  have hstep : read_loop L cfg pattern { s with escape_state := .ESCAPE_STATE_IN } [l]
      = (Out.putwchar l :: after, some { s with escape_state := .ESCAPE_STATE_LAST }) := by
    simp [read_loop, ha]
  have happ := read_loop_append L cfg pattern mid [l] _ _ _ hin
  rw [hstep] at happ
  simp [read_loop, loop_body_in L cfg pattern s 27 hc h27, happ]

/-- The body of the stream loop returns; its output is the loop's output followed
by the reset escape when coloring is active, and `cc` is `-1` afterwards. -/
theorem process_file_shape (L : Libc K) (cfg : Config K) (pattern : pattern_t K)
    (v : main_vars) (input : List Nat) :
    ∃ body s1, read_loop L cfg pattern
          { cc := v.cc, char_index := v.char_index, line_index := v.line_index,
            escape_state := .ESCAPE_STATE_OUT } input = (body, some s1)
      ∧ process_file L cfg pattern v input
          = (body ++ (if cfg.print_colors then [Out.reset] else []),
              some { cc := -1, char_index := s1.char_index, line_index := s1.line_index })
      ∧ chars_written body = input ∧ Out.reset ∉ body := by
  obtain ⟨body, s1, hr, h1, h2⟩ := read_loop_shape L cfg pattern input
    { cc := v.cc, char_index := v.char_index, line_index := v.line_index,
      escape_state := .ESCAPE_STATE_OUT }
  refine ⟨body, s1, hr, ?_, h1, h2⟩
  unfold process_file
  rw [hr]
  by_cases hc : cfg.print_colors = true <;> simp [hc]

/-- The loop over the streams returns. -/
theorem process_files_some (L : Libc K) (cfg : Config K) (pattern : pattern_t K)
    (inputs : List (List Nat)) (v : main_vars) :
    ∃ outs v1, process_files L cfg pattern v inputs = (outs, some v1) := by
  induction inputs generalizing v with
  | nil => exact ⟨[], v, rfl⟩
  | cons input rest ih =>
    obtain ⟨body, s1, -, hp, -⟩ := process_file_shape L cfg pattern v input
    obtain ⟨outs, v2, hrest⟩ := ih
      { cc := -1, char_index := s1.char_index, line_index := s1.line_index }
    exact ⟨(body ++ (if cfg.print_colors then [Out.reset] else [])) :: outs, v2,
      by simp [process_files, hp, hrest]⟩

/-! ## The claims -/

/-- On exact arithmetic, with coloring active, the characters the stream loop
writes with `putwchar` are exactly the input characters in order (dropping the
engine's color and reset escapes from the output gives the input), and every
foreign escape sequence of the input (the escape character, non-letters, a
letter) appears in the output as one uninterrupted run of written characters:
no engine escape stands between the escape character and the final letter.
In binary32 arithmetic the stream loop need not return (last section). -/
theorem stream_written_verbatim (L : Libc K) (cfg : Config K) (pattern : pattern_t K)
    (v : main_vars) (input : List Nat) (hc : cfg.print_colors = true) :
    ∃ out v1, process_file L cfg pattern v input = (out, some v1)
      ∧ chars_written out = input
      ∧ ∀ (before mid : List Nat) (l : Nat) (after : List Nat),
          input = before ++ 27 :: (mid ++ l :: after) →
          (∀ m ∈ mid, IS_LETTER m = false) → IS_LETTER l = true →
          ∃ o_before o_after,
            out = o_before ++ Out.putwchar 27 ::
                (mid.map Out.putwchar ++ Out.putwchar l :: o_after)
            ∧ chars_written o_before = before ∧ chars_written o_after = after := by
  obtain ⟨body, s1, hr, hp, h1, -⟩ := process_file_shape L cfg pattern v input
  refine ⟨_, _, hp, ?_, ?_⟩
  · simp [chars_written_append, h1, hc, chars_written]
  · intro before mid l after hin hmid hl
    obtain ⟨ob, sb, hb, hb1, -⟩ := read_loop_shape L cfg pattern before
      { cc := v.cc, char_index := v.char_index, line_index := v.line_index,
        escape_state := .ESCAPE_STATE_OUT }
    obtain ⟨aft, hf, hf1, -⟩ := read_loop_foreign L cfg pattern mid l sb hc hmid hl
    obtain ⟨oa, sa, ha, ha1, -⟩ := read_loop_shape L cfg pattern after
      { sb with escape_state := .ESCAPE_STATE_LAST }
    have hsplit : input = before ++ ((27 :: (mid ++ [l])) ++ after) := by
      simp [hin]
    have h2 := read_loop_append L cfg pattern (27 :: (mid ++ [l])) after _ _ _ hf
    have h3 := read_loop_append L cfg pattern before ((27 :: (mid ++ [l])) ++ after) _ _ _ hb
    rw [h2, ha] at h3
    rw [hsplit, h3] at hr
    simp only [Prod.mk.injEq] at hr
    refine ⟨ob, aft ++ oa ++ [Out.reset], ?_, hb1, ?_⟩
    · rw [← hr.1]
      simp [hc]
    · simp [chars_written_append, hf1, ha1, chars_written]

/-- The stream `A ESC [ 3 1 m B` under `cfg_step` (palette mode): coloring is
active, and the stream is written verbatim. -/
theorem stream_written_verbatim_witness :
    cfg_step.print_colors = true
      ∧ ∃ out v1, process_file libc_eval cfg_step rainbow main_vars_init
            [65, 27, 91, 51, 49, 109, 66] = (out, some v1)
          ∧ chars_written out = [65, 27, 91, 51, 49, 109, 66]
          ∧ ∀ (before mid : List Nat) (l : Nat) (after : List Nat),
              [65, 27, 91, 51, 49, 109, 66] = before ++ 27 :: (mid ++ l :: after) →
              (∀ m ∈ mid, IS_LETTER m = false) → IS_LETTER l = true →
              ∃ o_before o_after,
                out = o_before ++ Out.putwchar 27 ::
                    (mid.map Out.putwchar ++ Out.putwchar l :: o_after)
                ∧ chars_written o_before = before ∧ chars_written o_after = after :=
  ⟨rfl, stream_written_verbatim libc_eval cfg_step rainbow main_vars_init
    [65, 27, 91, 51, 49, 109, 66] rfl⟩

/-- On exact arithmetic, the output for a stream is a body followed by the
reset escape when coloring is active and by nothing when it is not; the body
holds every input character and no reset escape, so the reset escape is
written exactly once, after the last character, when coloring is active, and
never otherwise (an empty stream included). In binary32 arithmetic the end of
the stream need not be reached (last section). -/
theorem reset_once_after_stream (L : Libc K) (cfg : Config K) (pattern : pattern_t K)
    (v : main_vars) (input : List Nat) :
    ∃ body v1, process_file L cfg pattern v input
        = (body ++ (if cfg.print_colors then [Out.reset] else []), some v1)
      ∧ Out.reset ∉ body ∧ chars_written body = input := by
  obtain ⟨body, s1, -, hp, h1, h2⟩ := process_file_shape L cfg pattern v input
  exact ⟨body, _, hp, h2, h1⟩

/-- C8: `get_pattern` returns the ten catalog patterns for the identifiers 0 to
9 and `NULL` for every other identifier; `main` exits with status 1 and an
empty output exactly when `get_pattern` has no pattern for the identifier,
otherwise it runs the render loop with the pattern `get_pattern` returned and
exits with status 0; it never reaches the render loop with a `NULL` pattern. -/
theorem get_pattern_and_validation (L : Libc K) (cfg : Config K)
    (inputs : List (List Nat)) :
    ((get_pattern 0 : Option (pattern_t K)) = some rainbow
      ∧ (get_pattern 1 : Option (pattern_t K)) = some transgender
      ∧ (get_pattern 2 : Option (pattern_t K)) = some nonbinary
      ∧ (get_pattern 3 : Option (pattern_t K)) = some lesbian
      ∧ (get_pattern 4 : Option (pattern_t K)) = some gay
      ∧ (get_pattern 5 : Option (pattern_t K)) = some pansexual
      ∧ (get_pattern 6 : Option (pattern_t K)) = some bisexual
      ∧ (get_pattern 7 : Option (pattern_t K)) = some gender_fluid
      ∧ (get_pattern 8 : Option (pattern_t K)) = some asexual
      ∧ (get_pattern 9 : Option (pattern_t K)) = some unlabeled)
    ∧ (∀ ft : Int, (get_pattern ft : Option (pattern_t K)) = none ↔ (ft < 0 ∨ 9 < ft))
    ∧ (main L cfg inputs = main_result.exited 1 []
        ↔ (get_pattern cfg.flag_type : Option (pattern_t K)) = none)
    ∧ (∀ pattern : pattern_t K, get_pattern cfg.flag_type = some pattern →
        ∃ outs v1, process_files L cfg pattern main_vars_init inputs = (outs, some v1)
          ∧ main L cfg inputs = main_result.exited 0 outs.flatten)
    ∧ main L cfg inputs ≠ main_result.null_pattern := by
  have hrun : ∀ pattern : pattern_t K, get_pattern cfg.flag_type = some pattern →
      ∃ outs v1, process_files L cfg pattern main_vars_init inputs = (outs, some v1)
        ∧ main L cfg inputs = main_result.exited 0 outs.flatten := by
    intro pattern hp
    obtain ⟨outs, v1, hr⟩ := process_files_some L cfg pattern inputs main_vars_init
    refine ⟨outs, v1, hr, ?_⟩
    have hv : ¬ (cfg.flag_type ≤ FLAG_TYPE_INVALID ∨ cfg.flag_type ≥ FLAG_TYPE_END) := by
      intro hbad
      have hn := (get_pattern_eq_none_iff (K := K) cfg.flag_type).2
        (by simp only [FLAG_TYPE_INVALID, FLAG_TYPE_END] at hbad; omega)
      rw [hn] at hp
      exact Option.noConfusion hp
    unfold main
    rw [if_neg hv, hp]
    simp only
    unfold main_vars_init at hr
    rw [hr]
  have hnone : (get_pattern cfg.flag_type : Option (pattern_t K)) = none →
      main L cfg inputs = main_result.exited 1 [] := by
    intro hn
    have hbad := (get_pattern_eq_none_iff (K := K) cfg.flag_type).1 hn
    have hv : cfg.flag_type ≤ FLAG_TYPE_INVALID ∨ cfg.flag_type ≥ FLAG_TYPE_END := by
      simp only [FLAG_TYPE_INVALID, FLAG_TYPE_END]
      omega
    unfold main
    rw [if_pos hv]
  refine ⟨⟨rfl, rfl, rfl, rfl, rfl, rfl, rfl, rfl, rfl, rfl⟩,
    get_pattern_eq_none_iff, ⟨?_, hnone⟩, hrun, ?_⟩
  · intro hm
    cases hg : (get_pattern cfg.flag_type : Option (pattern_t K)) with
    | none => rfl
    | some pattern =>
      obtain ⟨outs, v1, -, h0⟩ := hrun pattern hg
      rw [h0] at hm
      simp at hm
  · cases hg : (get_pattern cfg.flag_type : Option (pattern_t K)) with
    | none => rw [hnone hg]; simp
    | some pattern =>
      obtain ⟨outs, v1, -, h0⟩ := hrun pattern hg
      rw [h0]
      simp

/-! ## The phase after the loops -/

/-- For a positive `M_PI` the iteration counts of `theta_in_range` suffice: both
loops end with their conditions false, the phase in `[0, 2 * M_PI)`. -/
theorem theta_in_range_bounds (M_PI theta : K) (hpi : 0 < M_PI) :
    0 ≤ theta_in_range M_PI theta ∧ theta_in_range M_PI theta < 2 * M_PI := by
  have hp : (0 : K) < 2 * M_PI := by linarith
  unfold theta_in_range
  simp only
  have h1 : 0 ≤ theta_add_loop (2 * M_PI) ⌈-theta / (2 * M_PI)⌉.toNat theta := by
    apply theta_add_loop_nonneg
    have hc : -theta / (2 * M_PI) ≤ ((⌈-theta / (2 * M_PI)⌉ : Int) : K) := Int.le_ceil _
    have hn : ((⌈-theta / (2 * M_PI)⌉ : Int) : K)
        ≤ ((⌈-theta / (2 * M_PI)⌉.toNat : Nat) : K) := by
      have := Int.self_le_toNat ⌈-theta / (2 * M_PI)⌉
      exact_mod_cast this
    have := (div_le_iff₀ hp).1 (le_trans hc hn)
    exact this
  apply theta_sub_loop_lt _ _ _ h1
  set t := theta_add_loop (2 * M_PI) ⌈-theta / (2 * M_PI)⌉.toNat theta
  have hc : t / (2 * M_PI) < ((⌊t / (2 * M_PI)⌋ : Int) : K) + 1 := Int.lt_floor_add_one _
  have hn : ((⌊t / (2 * M_PI)⌋ : Int) : K) ≤ ((⌊t / (2 * M_PI)⌋.toNat : Nat) : K) := by
    have := Int.self_le_toNat ⌊t / (2 * M_PI)⌋
    exact_mod_cast this
  have hlt : t / (2 * M_PI) < ((⌊t / (2 * M_PI)⌋.toNat : Nat) : K) + 1 := by linarith
  exact (div_lt_iff₀ hp).1 hlt

/-! ## Rounding and channels -/

theorem lrintf_floor_le (x : K) : ⌊x⌋ ≤ lrintf x := by
  unfold lrintf
  split_ifs <;> omega

theorem lrintf_le_ceil (x : K) : lrintf x ≤ ⌈x⌉ := by
  unfold lrintf
  have hfl : (⌊x⌋ : K) ≤ x := Int.floor_le x
  have hc : ⌊x⌋ + 1 ≤ ⌈x⌉ ∨ x = ⌊x⌋ := by
    by_cases hx : x = (⌊x⌋ : K)
    · exact Or.inr hx
    · left
      have hlt : (⌊x⌋ : K) < x := lt_of_le_of_ne hfl (Ne.symm hx)
      have : ⌊x⌋ < ⌈x⌉ := by
        rw [Int.lt_ceil]
        exact hlt
      omega
  have hfc : ⌊x⌋ ≤ ⌈x⌉ := Int.floor_le_ceil x
  rcases hc with hc | hc
  · split_ifs <;> omega
  · have h0 : x - (⌊x⌋ : K) < 1 / 2 := by
      rw [← hc]
      simp
    rw [if_pos h0]
    exact hfc

theorem lrintf_near (x : K) : |((lrintf x : Int) : K) - x| ≤ 1 / 2 := by
  unfold lrintf
  have hfl : (⌊x⌋ : K) ≤ x := Int.floor_le x
  have hlt : x < (⌊x⌋ : K) + 1 := Int.lt_floor_add_one x
  rw [abs_le]
  split_ifs with h1 h2 h3
  · constructor <;> linarith
  · push_cast
    constructor <;> linarith
  · have : x - (⌊x⌋ : K) = 1 / 2 := le_antisymm (not_lt.1 h2) (not_lt.1 h1)
    constructor <;> linarith
  · have : x - (⌊x⌋ : K) = 1 / 2 := le_antisymm (not_lt.1 h2) (not_lt.1 h1)
    push_cast
    constructor <;> linarith

theorem lrintf_intCast (n : Int) : lrintf ((n : K)) = n := by
  unfold lrintf
  simp

theorem hex_red_lt (c : Nat) : hex_red c < 256 := by
  unfold hex_red
  have h : c &&& 0xff0000 ≤ 0xff0000 := Nat.and_le_right
  rw [Nat.shiftRight_eq_div_pow]
  omega

theorem hex_green_lt (c : Nat) : hex_green c < 256 := by
  unfold hex_green
  have h : c &&& 0x00ff00 ≤ 0x00ff00 := Nat.and_le_right
  rw [Nat.shiftRight_eq_div_pow]
  omega

theorem hex_blue_lt (c : Nat) : hex_blue c < 256 := by
  unfold hex_blue
  have h : c &&& 0x0000ff ≤ 0x0000ff := Nat.and_le_right
  rw [Nat.shiftRight_eq_div_pow]
  omega

theorem to_uint8_of_lt (n : Nat) (h : n < 256) : to_uint8 (n : Int) = n := by
  unfold to_uint8
  omega

/-- A blend of two 8-bit channels with an effective balance in `[0, 1]` rounds
to a value between them, so the 8-bit store keeps it. -/
theorem blend_channel (x1 x2 : Nat) (h1 : x1 < 256) (h2 : x2 < 256) (e : K)
    (he0 : 0 ≤ e) (he1 : e ≤ 1) :
    channel_in_range x1 x2 e (to_uint8 (lrintf ((x1 : K) * e + (x2 : K) * (1 - e)))) := by
  set v : K := (x1 : K) * e + (x2 : K) * (1 - e) with hv
  have he' : 0 ≤ 1 - e := by linarith
  have hmin1 : ((min x1 x2 : Nat) : K) ≤ (x1 : K) := by exact_mod_cast min_le_left x1 x2
  have hmin2 : ((min x1 x2 : Nat) : K) ≤ (x2 : K) := by exact_mod_cast min_le_right x1 x2
  have hmax1 : (x1 : K) ≤ ((max x1 x2 : Nat) : K) := by exact_mod_cast le_max_left x1 x2
  have hmax2 : (x2 : K) ≤ ((max x1 x2 : Nat) : K) := by exact_mod_cast le_max_right x1 x2
  have hlo : ((min x1 x2 : Nat) : K) ≤ v := by
    have a1 := mul_le_mul_of_nonneg_right hmin1 he0
    have a2 := mul_le_mul_of_nonneg_right hmin2 he'
    rw [hv]
    nlinarith
  have hhi : v ≤ ((max x1 x2 : Nat) : K) := by
    have a1 := mul_le_mul_of_nonneg_right hmax1 he0
    have a2 := mul_le_mul_of_nonneg_right hmax2 he'
    rw [hv]
    nlinarith
  have hfl : ((min x1 x2 : Nat) : Int) ≤ ⌊v⌋ := by
    rw [Int.le_floor]
    exact_mod_cast hlo
  have hce : ⌈v⌉ ≤ ((max x1 x2 : Nat) : Int) := by
    rw [Int.ceil_le]
    exact_mod_cast hhi
  have hl1 := lrintf_floor_le v
  have hl2 := lrintf_le_ceil v
  have hmaxlt : max x1 x2 < 256 := max_lt h1 h2
  have hnn : 0 ≤ lrintf v := by omega
  have hu : ((to_uint8 (lrintf v) : Nat) : Int) = lrintf v := by
    unfold to_uint8
    omega
  have hnear := lrintf_near v
  have hcast : ((to_uint8 (lrintf v) : Nat) : K) = ((lrintf v : Int) : K) := by
    have h := congrArg (fun z : Int => (z : K)) hu
    simpa using h
  refine ⟨hu, ?_, ?_, ?_, ?_⟩
  · rw [hcast]
    exact hnear
  · omega
  · omega
  · omega

/-- When `pow` gives 1, `mix_colors` returns the channels of `color1`. -/
theorem mix_colors_of_pow_one (pow : K → K → K) (color1 color2 : Nat) (balance factor : K)
    (h : pow balance factor = 1) :
    mix_colors pow color1 color2 balance factor
      = { red := hex_red color1, green := hex_green color1, blue := hex_blue color1 } := by
  unfold mix_colors
  simp only [h, mul_one, sub_self, mul_zero, add_zero]
  have hr : lrintf ((hex_red color1 : K)) = (hex_red color1 : Int) := by
    exact_mod_cast lrintf_intCast (K := K) (hex_red color1 : Int)
  have hg : lrintf ((hex_green color1 : K)) = (hex_green color1 : Int) := by
    exact_mod_cast lrintf_intCast (K := K) (hex_green color1 : Int)
  have hb : lrintf ((hex_blue color1 : K)) = (hex_blue color1 : Int) := by
    exact_mod_cast lrintf_intCast (K := K) (hex_blue color1 : Int)
  rw [hr, hg, hb, to_uint8_of_lt _ (hex_red_lt _), to_uint8_of_lt _ (hex_green_lt _),
    to_uint8_of_lt _ (hex_blue_lt _)]

/-- When `pow` gives 0, `mix_colors` returns the channels of `color2`. -/
theorem mix_colors_of_pow_zero (pow : K → K → K) (color1 color2 : Nat) (balance factor : K)
    (h : pow balance factor = 0) :
    mix_colors pow color1 color2 balance factor
      = { red := hex_red color2, green := hex_green color2, blue := hex_blue color2 } := by
  unfold mix_colors
  simp only [h, mul_one, sub_zero, mul_zero, zero_add]
  have hr : lrintf ((hex_red color2 : K)) = (hex_red color2 : Int) := by
    exact_mod_cast lrintf_intCast (K := K) (hex_red color2 : Int)
  have hg : lrintf ((hex_green color2 : K)) = (hex_green color2 : Int) := by
    exact_mod_cast lrintf_intCast (K := K) (hex_green color2 : Int)
  have hb : lrintf ((hex_blue color2 : K)) = (hex_blue color2 : Int) := by
    exact_mod_cast lrintf_intCast (K := K) (hex_blue color2 : Int)
  rw [hr, hg, hb, to_uint8_of_lt _ (hex_red_lt _), to_uint8_of_lt _ (hex_green_lt _),
    to_uint8_of_lt _ (hex_blue_lt _)]

/-- C9: over the reals, for every pair of colors and every easing factor > 0,
`mix_colors` with balance 1 returns the three channels of `color1`, and with
balance 0 the three channels of `color2`. -/
theorem mix_colors_endpoints (color1 color2 : Nat) (factor : ℝ) (hf : 0 < factor) :
    mix_colors (fun b e : ℝ => b ^ e) color1 color2 1 factor
        = { red := hex_red color1, green := hex_green color1, blue := hex_blue color1 }
      ∧ mix_colors (fun b e : ℝ => b ^ e) color1 color2 0 factor
        = { red := hex_red color2, green := hex_green color2, blue := hex_blue color2 } :=
  ⟨mix_colors_of_pow_one _ _ _ _ _ (Real.one_rpow factor),
    mix_colors_of_pow_zero _ _ _ _ _ (Real.zero_rpow (ne_of_gt hf))⟩

/-- The transgender stripes blue and pink, easing factor 4: balance 1 gives
blue `(0x55, 0xcd, 0xfc)`, balance 0 gives pink `(0xf7, 0xa8, 0xb8)`. -/
theorem mix_colors_endpoints_witness :
    (0 : ℝ) < 4
      ∧ mix_colors (fun b e : ℝ => b ^ e) 0x55cdfc 0xf7a8b8 1 4
        = { red := 0x55, green := 0xcd, blue := 0xfc }
      ∧ mix_colors (fun b e : ℝ => b ^ e) 0x55cdfc 0xf7a8b8 0 4
        = { red := 0xf7, green := 0xa8, blue := 0xb8 } :=
  ⟨by norm_num, mix_colors_endpoints 0x55cdfc 0xf7a8b8 4 (by norm_num)⟩

/-- C10: over the reals, for every pair of colors, every balance in `[0, 1]` and
every easing factor > 0, each channel `mix_colors` outputs is the rounded blend
`lrintf (c1 * b^f + c2 * (1 - b^f))` of the two input channels (within one half
of the exact blend), lies between their minimum and maximum, hence in 0..255,
and the 8-bit store does not wrap. -/
theorem mix_colors_channels_in_range (color1 color2 : Nat) (balance factor : ℝ)
    (hb0 : 0 ≤ balance) (hb1 : balance ≤ 1) (hf : 0 < factor) :
    channel_in_range (hex_red color1) (hex_red color2) (balance ^ factor)
        (mix_colors (fun b e : ℝ => b ^ e) color1 color2 balance factor).red
      ∧ channel_in_range (hex_green color1) (hex_green color2) (balance ^ factor)
        (mix_colors (fun b e : ℝ => b ^ e) color1 color2 balance factor).green
      ∧ channel_in_range (hex_blue color1) (hex_blue color2) (balance ^ factor)
        (mix_colors (fun b e : ℝ => b ^ e) color1 color2 balance factor).blue := by
  have he0 : 0 ≤ balance ^ factor := Real.rpow_nonneg hb0 factor
  have he1 : balance ^ factor ≤ 1 := Real.rpow_le_one hb0 hb1 (le_of_lt hf)
  exact ⟨blend_channel _ _ (hex_red_lt _) (hex_red_lt _) _ he0 he1,
    blend_channel _ _ (hex_green_lt _) (hex_green_lt _) _ he0 he1,
    blend_channel _ _ (hex_blue_lt _) (hex_blue_lt _) _ he0 he1⟩

/-- The transgender stripes blue and pink at balance 1/2 with easing factor 4. -/
theorem mix_colors_channels_in_range_witness :
    ((0 : ℝ) ≤ 1 / 2 ∧ (1 / 2 : ℝ) ≤ 1 ∧ (0 : ℝ) < 4)
      ∧ channel_in_range (hex_red 0x55cdfc) (hex_red 0xf7a8b8) ((1 / 2 : ℝ) ^ (4 : ℝ))
        (mix_colors (fun b e : ℝ => b ^ e) 0x55cdfc 0xf7a8b8 (1 / 2) 4).red
      ∧ channel_in_range (hex_green 0x55cdfc) (hex_green 0xf7a8b8) ((1 / 2 : ℝ) ^ (4 : ℝ))
        (mix_colors (fun b e : ℝ => b ^ e) 0x55cdfc 0xf7a8b8 (1 / 2) 4).green
      ∧ channel_in_range (hex_blue 0x55cdfc) (hex_blue 0xf7a8b8) ((1 / 2 : ℝ) ^ (4 : ℝ))
        (mix_colors (fun b e : ℝ => b ^ e) 0x55cdfc 0xf7a8b8 (1 / 2) 4).blue :=
  ⟨⟨by norm_num, by norm_num, by norm_num⟩,
    mix_colors_channels_in_range 0x55cdfc 0xf7a8b8 (1 / 2) 4
      (by norm_num) (by norm_num) (by norm_num)⟩

/-! ## Evaluations and the palette index -/

/-- C3 (the code at the input of the claim): for the stream `"AB\nC"` with the
rainbow pattern in palette mode, frequencies (0, 0) and zero offsets, the
palette index is 0 for every character, and the code writes the palette escape
before `A`, again before `B`, and again before `C`: the run `AB` gets two
escapes, not one. -/
theorem palette_escape_repeated :
    process_file libc_eval cfg_flat rainbow main_vars_init [65, 66, 10, 67]
      = ([Out.ansi 39, Out.putwchar 65, Out.ansi 39, Out.putwchar 66, Out.putwchar 10,
          Out.ansi 39, Out.putwchar 67, Out.reset],
          some { cc := -1, char_index := 1, line_index := 1 })
      ∧ print_color_ncc (rainbow : pattern_t ℚ) 1 0 0 0 0 = 0
      ∧ print_color_ncc (rainbow : pattern_t ℚ) 2 0 0 0 0 = 0 := by
  refine ⟨?_, ?_, ?_⟩
  · simp [process_file, read_loop, loop_body, handle_colors, after_putwchar, print_color,
      print_color_ncc, print_color_position, double_to_int, int_to_unsigned,
      find_escape_sequences, Config.color_type, cfg_flat, rainbow, main_vars_init,
      libc_eval, wcwidth_ascii]
  · simp [print_color_ncc, double_to_int, rainbow]
  · simp [print_color_ncc, double_to_int, rainbow]

/-- C4 (counterexample): with horizontal frequency 1, two consecutive streams
that both hold `"A"` get different outputs: the first is colored with code 38
(column 1), the second with code 44 (column 2). -/
theorem second_stream_differs :
    process_files libc_eval cfg_step rainbow main_vars_init [[65], [65]]
        = ([[Out.ansi 38, Out.putwchar 65, Out.reset],
            [Out.ansi 44, Out.putwchar 65, Out.reset]],
            some { cc := -1, char_index := 2, line_index := 0 })
      ∧ [Out.ansi 38, Out.putwchar 65, Out.reset]
        ≠ [Out.ansi 44, Out.putwchar 65, Out.reset] := by
  refine ⟨?_, by decide⟩
  simp [process_files, process_file, read_loop, loop_body, handle_colors, after_putwchar,
    print_color, print_color_ncc, print_color_position, double_to_int, int_to_unsigned,
    find_escape_sequences, Config.color_type, cfg_step, rainbow, main_vars_init,
    libc_eval, wcwidth_ascii]

/-- C4 (amended): of two consecutive streams with the same content, the first is
rendered by the stream loop from the column and row `main` holds, the second
by the stream loop from the column and row at which the loop of the first
stream ended, each from escape state `OUT` and with `cc = -1` (whatever escape
state the first stream ended in); so column and row carry over, escape state
and `cc` do not, and the second output is identical to the first whenever the
first loop ends at the column and row it started from. -/
theorem consecutive_streams (L : Libc K) (cfg : Config K) (pattern : pattern_t K)
    (v : main_vars) (input : List Nat) (hcc : v.cc = -1) :
    ∃ (body1 body2 : List Out) (s1 s2 : loop_vars),
      read_loop L cfg pattern
          { cc := v.cc, char_index := v.char_index, line_index := v.line_index,
            escape_state := .ESCAPE_STATE_OUT } input = (body1, some s1)
        ∧ read_loop L cfg pattern
          { cc := -1, char_index := s1.char_index, line_index := s1.line_index,
            escape_state := .ESCAPE_STATE_OUT } input = (body2, some s2)
        ∧ process_files L cfg pattern v [input, input]
          = ([body1 ++ (if cfg.print_colors then [Out.reset] else []),
              body2 ++ (if cfg.print_colors then [Out.reset] else [])],
              some { cc := -1, char_index := s2.char_index, line_index := s2.line_index })
        ∧ (s1.char_index = v.char_index → s1.line_index = v.line_index → body2 = body1) := by
  obtain ⟨body1, s1, hr1, -⟩ := read_loop_shape L cfg pattern input
    { cc := v.cc, char_index := v.char_index, line_index := v.line_index,
      escape_state := .ESCAPE_STATE_OUT }
  obtain ⟨body2, s2, hr2, -⟩ := read_loop_shape L cfg pattern input
    { cc := -1, char_index := s1.char_index, line_index := s1.line_index,
      escape_state := .ESCAPE_STATE_OUT }
  refine ⟨body1, body2, s1, s2, hr1, hr2, ?_, ?_⟩
  · by_cases hc : cfg.print_colors = true <;>
      simp [process_files, process_file, hr1, hr2, hc]
  · intro hci hli
    have hstart : (⟨v.cc, v.char_index, v.line_index, .ESCAPE_STATE_OUT⟩ : loop_vars)
        = ⟨-1, s1.char_index, s1.line_index, .ESCAPE_STATE_OUT⟩ := by
      rw [hcc, hci, hli]
    rw [hstart, hr2] at hr1
    simp only [Prod.mk.injEq] at hr1
    exact hr1.1

/-- The stream `"A\b"` (a letter, then a backspace of width -1) under
`cfg_step`, from the start of `main`: the hypothesis of C4 holds and its
conclusion is obtained for this stream. -/
theorem consecutive_streams_witness :
    main_vars_init.cc = -1
      ∧ ∃ (body1 body2 : List Out) (s1 s2 : loop_vars),
        read_loop libc_eval cfg_step rainbow
            { cc := main_vars_init.cc, char_index := main_vars_init.char_index,
              line_index := main_vars_init.line_index,
              escape_state := escape_state_t.ESCAPE_STATE_OUT } [65, 8] = (body1, some s1)
          ∧ read_loop libc_eval cfg_step rainbow
            { cc := -1, char_index := s1.char_index, line_index := s1.line_index,
              escape_state := escape_state_t.ESCAPE_STATE_OUT } [65, 8] = (body2, some s2)
          ∧ process_files libc_eval cfg_step rainbow main_vars_init [[65, 8], [65, 8]]
            = ([body1 ++ (if cfg_step.print_colors then [Out.reset] else []),
                body2 ++ (if cfg_step.print_colors then [Out.reset] else [])],
                some { cc := -1, char_index := s2.char_index, line_index := s2.line_index })
          ∧ (s1.char_index = main_vars_init.char_index →
              s1.line_index = main_vars_init.line_index → body2 = body1) :=
  ⟨rfl, consecutive_streams libc_eval cfg_step rainbow main_vars_init [65, 8] rfl⟩

/-- The two streams `"A\b"` of the witness of C4, evaluated: the column is back
at 0 after the first, and both get the same output. -/
theorem consecutive_streams_same_output :
    process_files libc_eval cfg_step rainbow main_vars_init [[65, 8], [65, 8]]
      = ([[Out.ansi 38, Out.putwchar 65, Out.ansi 39, Out.putwchar 8, Out.reset],
          [Out.ansi 38, Out.putwchar 65, Out.ansi 39, Out.putwchar 8, Out.reset]],
          some main_vars_init) := by
  simp [process_files, process_file, read_loop, loop_body, handle_colors, after_putwchar,
    print_color, print_color_ncc, print_color_position, double_to_int, int_to_unsigned,
    find_escape_sequences, Config.color_type, cfg_step, rainbow, main_vars_init,
    libc_eval, wcwidth_ascii]

/-- For a base offset `b >= 0` and a position term `c*fh + r*fv >= 0` both
conversions to `int` are floors, and the index is the sum of the two floors. -/
theorem print_color_ncc_of_nonneg (pattern : pattern_t K) (c r : Int) (fh fv b : K)
    (hb : 0 ≤ b) (hx : 0 ≤ (c : K) * fh + (r : K) * fv) :
    print_color_ncc pattern c r fh fv b
      = ⌊b * (pattern.ansii_pattern.codes_count : K)⌋ + ⌊(c : K) * fh + (r : K) * fv⌋ := by
  have ha0 : 0 ≤ b * (pattern.ansii_pattern.codes_count : K) :=
    mul_nonneg hb (Nat.cast_nonneg _)
  have hfx : 0 ≤ ⌊(c : K) * fh + (r : K) * fv⌋ := Int.floor_nonneg.2 hx
  have hsum : 0 ≤ b * (pattern.ansii_pattern.codes_count : K)
      + ((⌊(c : K) * fh + (r : K) * fv⌋ : Int) : K) := by
    have : (0 : K) ≤ ((⌊(c : K) * fh + (r : K) * fv⌋ : Int) : K) := by exact_mod_cast hfx
    linarith
  unfold print_color_ncc double_to_int
  rw [if_pos hx, if_pos hsum, Int.floor_add_int]

/-- For a base offset 0 and a negative integral position term, the index is
that integer. -/
theorem print_color_ncc_of_neg_int (pattern : pattern_t K) (c r : Int) (fh fv : K) (z : Int)
    (hz : z < 0) (hx : (c : K) * fh + (r : K) * fv = (z : K)) :
    print_color_ncc pattern c r fh fv 0 = z := by
  have hneg : ¬ ((0 : K) ≤ (z : K)) := by
    rw [not_le]
    exact_mod_cast hz
  unfold print_color_ncc double_to_int
  rw [hx, if_neg hneg, Int.ceil_intCast, zero_mul, zero_add, if_neg hneg, Int.ceil_intCast]

/-- C5 (counterexample): with base offset 1/60 (so `offx * 30 = 1/2`), column 1,
row 0 and horizontal frequency 1/2 on the rainbow pattern, `print_color`
computes the index 0, while `floor(b*n + c*fh + r*fv) = floor(1) = 1`. -/
theorem palette_index_not_floor :
    ((0 : ℚ) ≤ 1 / 60 ∧ (1 / 60 : ℚ) < 1)
      ∧ print_color_ncc (rainbow : pattern_t ℚ) 1 0 (1 / 2) 0 (1 / 60) = 0
      ∧ spec_palette_index 30 1 0 (1 / 2 : ℚ) 0 (1 / 60) = 1 := by
  refine ⟨⟨by norm_num, by norm_num⟩, ?_, ?_⟩
  · have hx : (0 : ℚ) ≤ ((1 : Int) : ℚ) * (1 / 2) + ((0 : Int) : ℚ) * 0 := by norm_num
    rw [print_color_ncc_of_nonneg (rainbow : pattern_t ℚ) 1 0 (1 / 2) 0 (1 / 60)
      (by norm_num) hx]
    have h1 : ⌊(1 / 60 : ℚ) * (((rainbow : pattern_t ℚ).ansii_pattern.codes_count : Nat) : ℚ)⌋
        = 0 := by
      rw [Int.floor_eq_iff]
      norm_num [rainbow]
    have h2 : ⌊((1 : Int) : ℚ) * (1 / 2) + ((0 : Int) : ℚ) * 0⌋ = 0 := by
      rw [Int.floor_eq_iff]
      norm_num
    rw [h1, h2]
    rfl
  · unfold spec_palette_index
    rw [Int.floor_eq_iff]
    norm_num

/-- The conversion to `int` rounds toward zero: its value is no larger in
magnitude than the argument and less than 1 away from it. -/
theorem double_to_int_toward_zero (y : K) :
    |((double_to_int y : Int) : K)| ≤ |y| ∧ |y - ((double_to_int y : Int) : K)| < 1 := by
  unfold double_to_int
  by_cases h : 0 ≤ y
  · rw [if_pos h]
    have h1 : ((⌊y⌋ : Int) : K) ≤ y := Int.floor_le y
    have h2 : y < ((⌊y⌋ : Int) : K) + 1 := Int.lt_floor_add_one y
    have h3 : (0 : K) ≤ ((⌊y⌋ : Int) : K) := by exact_mod_cast Int.floor_nonneg.2 h
    rw [abs_of_nonneg h3, abs_of_nonneg h, abs_of_nonneg (by linarith)]
    constructor <;> linarith
  · rw [if_neg h]
    have hneg : y < 0 := not_le.1 h
    have h1 : y ≤ ((⌈y⌉ : Int) : K) := Int.le_ceil y
    have h2 : ((⌈y⌉ : Int) : K) < y + 1 := Int.ceil_lt_add_one y
    have h3 : ((⌈y⌉ : Int) : K) ≤ 0 := by
      have : ⌈y⌉ ≤ 0 := Int.ceil_le.2 (by simpa using le_of_lt hneg)
      exact_mod_cast this
    rw [abs_of_nonpos h3, abs_of_neg hneg, abs_of_nonpos (by linarith)]
    constructor <;> linarith

/-- Only one integer is no larger in magnitude than a value and less than 1
away from it: the truncation toward zero. -/
theorem spec_trunc_unique (y : K) (t : Int) (h1 : |(t : K)| ≤ |y|) (h2 : |y - (t : K)| < 1) :
    t = spec_trunc y := by
  unfold spec_trunc
  rw [abs_lt] at h2
  by_cases h : y < 0
  · rw [if_pos h]
    rw [abs_of_neg h] at h1
    have ht : -(t : K) ≤ -y := le_trans (neg_le_abs _) h1
    have ha : y ≤ (t : K) := by linarith
    have hb : (t : K) < y + 1 := by linarith
    have hc1 : ⌈y⌉ ≤ t := Int.ceil_le.2 ha
    have hc2 : t < ⌈y⌉ + 1 := by
      have : (t : K) < ((⌈y⌉ + 1 : Int) : K) := by
        push_cast
        have := Int.le_ceil y
        linarith
      exact_mod_cast this
    omega
  · rw [if_neg h]
    have h0 : 0 ≤ y := not_lt.1 h
    rw [abs_of_nonneg h0] at h1
    have ha : (t : K) ≤ y := le_trans (le_abs_self _) h1
    have hb : y < (t : K) + 1 := by linarith
    have hc1 : t ≤ ⌊y⌋ := Int.le_floor.2 ha
    have hc2 : ⌊y⌋ < t + 1 := by
      have : ((⌊y⌋ : Int) : K) < ((t + 1 : Int) : K) := by
        push_cast
        have := Int.floor_le y
        linarith
      exact_mod_cast this
    omega

/-- C5 (amended): for every column, row, frequencies, base offset and pattern,
the index `print_color` computes is `trunc(b*n + trunc(c*fh + r*fv))`, where
`trunc` rounds toward zero (each conversion gives the one integer no larger in
magnitude than its argument and less than 1 away from it): the position term
is cut to an integer before the offset term is added. The index is less than 2
away from the exact sum `b*n + c*fh + r*fv`; for `b >= 0` and a position term
`>= 0` it is `floor(b*n) + floor(c*fh + r*fv)`, which is
`floor(b*n + c*fh + r*fv)` or one less, and equal to it exactly when the
fractional parts of the two terms add up to less than 1. -/
theorem palette_index_value (pattern : pattern_t K) (c r : Int) (fh fv b : K) :
    print_color_ncc pattern c r fh fv b
        = spec_trunc (b * (pattern.ansii_pattern.codes_count : K)
            + ((spec_trunc ((c : K) * fh + (r : K) * fv) : Int) : K))
      ∧ (∃ t : Int,
          (|(t : K)| ≤ |(c : K) * fh + (r : K) * fv|
            ∧ |(c : K) * fh + (r : K) * fv - (t : K)| < 1)
          ∧ |((print_color_ncc pattern c r fh fv b : Int) : K)|
              ≤ |b * (pattern.ansii_pattern.codes_count : K) + (t : K)|
          ∧ |b * (pattern.ansii_pattern.codes_count : K) + (t : K)
              - ((print_color_ncc pattern c r fh fv b : Int) : K)| < 1)
      ∧ |((print_color_ncc pattern c r fh fv b : Int) : K)
          - (b * (pattern.ansii_pattern.codes_count : K) + (c : K) * fh + (r : K) * fv)| < 2
      ∧ (0 ≤ b → 0 ≤ (c : K) * fh + (r : K) * fv →
          print_color_ncc pattern c r fh fv b
              = ⌊b * (pattern.ansii_pattern.codes_count : K)⌋ + ⌊(c : K) * fh + (r : K) * fv⌋
            ∧ spec_palette_index pattern.ansii_pattern.codes_count c r fh fv b - 1
              ≤ print_color_ncc pattern c r fh fv b
            ∧ print_color_ncc pattern c r fh fv b
              ≤ spec_palette_index pattern.ansii_pattern.codes_count c r fh fv b
            ∧ (print_color_ncc pattern c r fh fv b
                = spec_palette_index pattern.ansii_pattern.codes_count c r fh fv b
              ↔ Int.fract (b * (pattern.ansii_pattern.codes_count : K))
                  + Int.fract ((c : K) * fh + (r : K) * fv) < 1)) := by
  set a : K := b * (pattern.ansii_pattern.codes_count : K) with ha
  set x : K := (c : K) * fh + (r : K) * fv with hxdef
  have hdef : print_color_ncc pattern c r fh fv b
      = double_to_int (a + ((double_to_int x : Int) : K)) := rfl
  have hts : ∀ y : K, double_to_int y = spec_trunc y := by
    intro y
    unfold double_to_int spec_trunc
    by_cases h : 0 ≤ y
    · rw [if_pos h, if_neg (not_lt.2 h)]
    · rw [if_neg h, if_pos (not_le.1 h)]
  have hp1 := double_to_int_toward_zero x
  have hp2 := double_to_int_toward_zero (a + ((double_to_int x : Int) : K))
  have ht : double_to_int x = spec_trunc x := hts x
  have hn : double_to_int (a + ((double_to_int x : Int) : K))
      = spec_trunc (a + ((double_to_int x : Int) : K)) := hts _
  refine ⟨?_, ⟨double_to_int x, hp1, ?_, ?_⟩, ?_, ?_⟩
  · rw [hdef, hn, ht]
  · rw [hdef]
    exact hp2.1
  · rw [hdef]
    exact hp2.2
  · rw [hdef]
    have e : ((double_to_int (a + ((double_to_int x : Int) : K)) : Int) : K) - (a + x)
        = -((a + ((double_to_int x : Int) : K))
              - ((double_to_int (a + ((double_to_int x : Int) : K)) : Int) : K))
          + -(x - ((double_to_int x : Int) : K)) := by ring
    have e2 : a + (c : K) * fh + (r : K) * fv = a + x := by
      rw [hxdef]
      ring
    rw [e2, e]
    calc |(-((a + ((double_to_int x : Int) : K))
              - ((double_to_int (a + ((double_to_int x : Int) : K)) : Int) : K))
          + -(x - ((double_to_int x : Int) : K)))|
        ≤ |(-((a + ((double_to_int x : Int) : K))
              - ((double_to_int (a + ((double_to_int x : Int) : K)) : Int) : K)))|
          + |(-(x - ((double_to_int x : Int) : K)))| := abs_add _ _
      _ < 1 + 1 := by
          rw [abs_neg, abs_neg]
          exact add_lt_add hp2.2 hp1.2
      _ = 2 := by norm_num
  · intro hb hx
    have hncc : print_color_ncc pattern c r fh fv b = ⌊a⌋ + ⌊x⌋ :=
      print_color_ncc_of_nonneg pattern c r fh fv b hb hx
    have hspec : spec_palette_index pattern.ansii_pattern.codes_count c r fh fv b
        = ⌊a + x⌋ := by
      unfold spec_palette_index
      rw [hxdef, ha, add_assoc]
    have hsplit : ⌊a + x⌋ = ⌊a⌋ + ⌊x⌋ + ⌊Int.fract a + Int.fract x⌋ := by
      have : a + x = Int.fract a + Int.fract x + ((⌊a⌋ + ⌊x⌋ : Int) : K) := by
        have e1 := Int.floor_add_fract a
        have e2 := Int.floor_add_fract x
        push_cast
        linarith
      rw [this, Int.floor_add_int]
      ring
    have hfr0 : 0 ≤ Int.fract a + Int.fract x :=
      add_nonneg (Int.fract_nonneg a) (Int.fract_nonneg x)
    have hfr2 : Int.fract a + Int.fract x < 2 := by
      have := Int.fract_lt_one a
      have := Int.fract_lt_one x
      linarith
    have hq0 : 0 ≤ ⌊Int.fract a + Int.fract x⌋ := Int.floor_nonneg.2 hfr0
    have hq1 : ⌊Int.fract a + Int.fract x⌋ ≤ 1 := by
      have : ⌊Int.fract a + Int.fract x⌋ < 2 := by
        rw [Int.floor_lt]
        exact_mod_cast hfr2
      omega
    have hq : ⌊Int.fract a + Int.fract x⌋ = 0 ↔ Int.fract a + Int.fract x < 1 := by
      rw [Int.floor_eq_iff]
      constructor
      · intro h
        simpa using h.2
      · intro h
        exact ⟨by simpa using hfr0, by simpa using h⟩
    rw [hncc, hspec, hsplit]
    refine ⟨rfl, by omega, by omega, ?_⟩
    rw [← hq]
    constructor <;> intro h <;> omega

/-- A tab at the start of a line leaves the column at -1: with the default
frequencies (0.23, 0.1), row 0 and base offset 1/60 (so `b*n = 1/2`) on the
rainbow pattern, the index is `trunc(1/2 + trunc(-0.23)) = trunc(1/2 + 0) = 0`,
which here is also `floor(1/2 - 0.23)`, while the two floors add up to -1. -/
theorem palette_index_value_witness :
    print_color_ncc (rainbow : pattern_t ℚ) (-1) 0 (23 / 100) (1 / 10) (1 / 60) = 0
      ∧ spec_palette_index 30 (-1) 0 (23 / 100 : ℚ) (1 / 10) (1 / 60) = 0
      ∧ ⌊(1 / 60 : ℚ) * 30⌋ + ⌊((-1 : Int) : ℚ) * (23 / 100) + ((0 : Int) : ℚ) * (1 / 10)⌋
          = -1 := by
  have hx : ((-1 : Int) : ℚ) * (23 / 100) + ((0 : Int) : ℚ) * (1 / 10) = -23 / 100 := by
    norm_num
  have hc : ⌈(-23 / 100 : ℚ)⌉ = 0 := by
    rw [Int.ceil_eq_iff]
    norm_num
  have hf : ⌊(-23 / 100 : ℚ)⌋ = -1 := by
    rw [Int.floor_eq_iff]
    norm_num
  have hn : (((rainbow : pattern_t ℚ).ansii_pattern.codes_count : Nat) : ℚ) = 30 := by
    simp [rainbow]
  have hh : ⌊(1 / 60 : ℚ) * 30⌋ = 0 := by
    rw [Int.floor_eq_iff]
    norm_num
  refine ⟨?_, ?_, ?_⟩
  · rw [(palette_index_value (rainbow : pattern_t ℚ) (-1) 0 (23 / 100) (1 / 10) (1 / 60)).1,
      hx, hn]
    have h1 : spec_trunc (-23 / 100 : ℚ) = 0 := by
      unfold spec_trunc
      rw [if_pos (by norm_num), hc]
    rw [h1]
    unfold spec_trunc
    rw [if_neg (by norm_num)]
    rw [Int.floor_eq_iff]
    norm_num
  · unfold spec_palette_index
    rw [Int.floor_eq_iff]
    norm_num
  · rw [hx, hf, hh]
    rfl

/-- C6 (counterexample): for the rainbow pattern with random offset 0 at column
2 with horizontal frequency -1, the index is -2 and `print_color` prints the
code 214, which is `ansii_codes[14]`; the mathematical remainder
`(0 + -2) mod 30` is 28 and `ansii_codes[28]` is 69. -/
theorem palette_code_negative_index :
    print_color_ncc (rainbow : pattern_t ℚ) 2 0 (-1) 0 0 = -2
      ∧ print_color libc_eval rainbow color_type_t.COLOR_TYPE_ANSII 2 0 (-1) 0 0 0 (-1)
        = some [Out.ansi 214]
      ∧ spec_palette_position 30 0 (-2) = 28
      ∧ (rainbow : pattern_t ℚ).ansii_pattern.ansii_codes.getD
          (spec_palette_position 30 0 (-2)) 0 = 69 := by
  have hncc : print_color_ncc (rainbow : pattern_t ℚ) 2 0 (-1) 0 0 = -2 :=
    print_color_ncc_of_neg_int rainbow 2 0 (-1) 0 (-2) (by norm_num) (by norm_num)
  have hpos : spec_palette_position 30 0 (-2) = 28 := by decide
  refine ⟨hncc, ?_, hpos, ?_⟩
  · unfold print_color
    simp only [hncc]
    simp [print_color_position, int_to_unsigned, rainbow]
  · rw [hpos]
    simp [rainbow]

/-- C6 (amended): whenever `print_color` emits a palette escape (the index
`ncc` differs from `cc`), the code it prints is
`ansii_codes[((rand_offset + ncc) mod 2^32) mod codes_count]`: the sum is
converted to `unsigned int` before the remainder is taken. The position is the
mathematical remainder `(rand_offset + ncc) mod codes_count` whenever
`0 <= rand_offset + ncc < 2^32`. -/
theorem palette_code_position (L : Libc K) (pattern : pattern_t K) (ci li : Int)
    (fh fv offx : K) (r cc : Int) (hne : cc ≠ print_color_ncc pattern ci li fh fv offx) :
    print_color L pattern color_type_t.COLOR_TYPE_ANSII ci li fh fv offx r cc
        = some [Out.ansi (pattern.ansii_pattern.ansii_codes.getD
            (((r + print_color_ncc pattern ci li fh fv offx) % 4294967296).toNat
              % pattern.ansii_pattern.codes_count) 0)]
      ∧ (0 ≤ r + print_color_ncc pattern ci li fh fv offx →
          r + print_color_ncc pattern ci li fh fv offx < 4294967296 →
          ((r + print_color_ncc pattern ci li fh fv offx) % 4294967296).toNat
              % pattern.ansii_pattern.codes_count
            = spec_palette_position pattern.ansii_pattern.codes_count r
                (print_color_ncc pattern ci li fh fv offx)) := by
  constructor
  · simp [print_color, hne, print_color_position, int_to_unsigned]
  · intro h0 h1
    unfold spec_palette_position
    generalize r + print_color_ncc pattern ci li fh fv offx = x at h0 h1
    lift x to Nat using h0
    have hx : ((x : Int) % 4294967296).toNat = x := by omega
    rw [hx, ← Int.natCast_mod, Int.toNat_natCast]

/-- The rainbow pattern at column 1 with horizontal frequency 1: the index 1
differs from `cc = -1`, and the code printed is `ansii_codes[1] = 38`. -/
theorem palette_code_position_witness :
    (-1 : Int) ≠ print_color_ncc (rainbow : pattern_t ℚ) 1 0 1 0 0
      ∧ print_color libc_eval rainbow color_type_t.COLOR_TYPE_ANSII 1 0 1 0 0 0 (-1)
        = some [Out.ansi ((rainbow : pattern_t ℚ).ansii_pattern.ansii_codes.getD
            (((0 + print_color_ncc (rainbow : pattern_t ℚ) 1 0 1 0 0) % 4294967296).toNat
              % (rainbow : pattern_t ℚ).ansii_pattern.codes_count) 0)] := by
  have hne : (-1 : Int) ≠ print_color_ncc (rainbow : pattern_t ℚ) 1 0 1 0 0 := by
    simp [print_color_ncc, double_to_int, rainbow]
  exact ⟨hne, (palette_code_position libc_eval rainbow 1 0 1 0 0 0 (-1) hne).1⟩

end EngineFacts

section PhaseLoops

variable {K : Type} [LinearOrderedField K]

/-! ## The phase normalization -/

/-- A phase that is not negative leaves the first loop at once. -/
theorem theta_add_loop_of_nonneg (two_pi : K) (fuel : Nat) (theta : K) (h : 0 ≤ theta) :
    theta_add_loop two_pi fuel theta = theta := by
  cases fuel with
  | zero => rfl
  | succ n => simp [theta_add_loop, not_lt.2 h]

/-- A phase below `two_pi` leaves the second loop at once. -/
theorem theta_sub_loop_of_lt (two_pi : K) (fuel : Nat) (theta : K) (h : theta < two_pi) :
    theta_sub_loop two_pi fuel theta = theta := by
  cases fuel with
  | zero => rfl
  | succ n => simp [theta_sub_loop, not_le.2 h]

/-- Once the first loop has ended with its condition false, more iterations
change nothing. -/
theorem theta_add_loop_stable (two_pi : K) (n : Nat) (theta : K)
    (h : 0 ≤ theta_add_loop two_pi n theta) (m : Nat) (hm : n ≤ m) :
    theta_add_loop two_pi m theta = theta_add_loop two_pi n theta := by
  induction n generalizing theta m with
  | zero =>
    simp only [theta_add_loop] at h
    simp only [theta_add_loop]
    exact theta_add_loop_of_nonneg two_pi m theta h
  | succ n ih =>
    obtain ⟨m1, rfl⟩ : ∃ m1, m = m1 + 1 := ⟨m - 1, by omega⟩
    by_cases hneg : theta < 0
    · simp only [theta_add_loop, if_pos hneg] at h ⊢
      exact ih _ h m1 (by omega)
    · simp only [theta_add_loop, if_neg hneg]

/-- Once the second loop has ended with its condition false, more iterations
change nothing. -/
theorem theta_sub_loop_stable (two_pi : K) (n : Nat) (theta : K)
    (h : theta_sub_loop two_pi n theta < two_pi) (m : Nat) (hm : n ≤ m) :
    theta_sub_loop two_pi m theta = theta_sub_loop two_pi n theta := by
  induction n generalizing theta m with
  | zero =>
    simp only [theta_sub_loop] at h
    simp only [theta_sub_loop]
    exact theta_sub_loop_of_lt two_pi m theta h
  | succ n ih =>
    obtain ⟨m1, rfl⟩ : ∃ m1, m = m1 + 1 := ⟨m - 1, by omega⟩
    by_cases hge : theta ≥ two_pi
    · simp only [theta_sub_loop, if_pos hge] at h ⊢
      exact ih _ h m1 (by omega)
    · simp only [theta_sub_loop, if_neg hge]

/-- The first loop adds a whole number of turns. -/
theorem theta_add_loop_turns (two_pi : K) (fuel : Nat) (theta : K) :
    ∃ k : Nat, theta_add_loop two_pi fuel theta = theta + (k : K) * two_pi := by
  induction fuel generalizing theta with
  | zero => exact ⟨0, by simp [theta_add_loop]⟩
  | succ n ih =>
    by_cases hneg : theta < 0
    · obtain ⟨k, hk⟩ := ih (theta + two_pi)
      refine ⟨k + 1, ?_⟩
      simp only [theta_add_loop, if_pos hneg, hk]
      push_cast
      ring
    · exact ⟨0, by simp [theta_add_loop, hneg]⟩

/-- The second loop subtracts a whole number of turns. -/
theorem theta_sub_loop_turns (two_pi : K) (fuel : Nat) (theta : K) :
    ∃ k : Nat, theta_sub_loop two_pi fuel theta = theta - (k : K) * two_pi := by
  induction fuel generalizing theta with
  | zero => exact ⟨0, by simp [theta_sub_loop]⟩
  | succ n ih =>
    by_cases hge : theta ≥ two_pi
    · obtain ⟨k, hk⟩ := ih (theta - two_pi)
      refine ⟨k + 1, ?_⟩
      simp only [theta_sub_loop, if_pos hge, hk]
      push_cast
      ring
    · exact ⟨0, by simp [theta_sub_loop, hge]⟩

/-- Two values of `[0, p)` that differ by a whole multiple of `p` are equal. -/
theorem eq_of_turns (p a b : K) (k : Int) (ha0 : 0 ≤ a) (ha1 : a < p)
    (hb0 : 0 ≤ b) (hb1 : b < p) (h : a = b + (k : K) * p) : a = b := by
  have hp : 0 < p := lt_of_le_of_lt ha0 ha1
  have hk1 : (k : K) * p < 1 * p := by linarith
  have hk2 : (-1 : K) * p < (k : K) * p := by linarith
  have h1 : (k : K) < 1 := lt_of_mul_lt_mul_right hk1 (le_of_lt hp)
  have h2 : (-1 : K) < (k : K) := lt_of_mul_lt_mul_right hk2 (le_of_lt hp)
  have h3 : k < 1 := by exact_mod_cast h1
  have h4 : -1 < k := by exact_mod_cast h2
  have h5 : k = 0 := by omega
  rw [h5] at h
  simpa using h

/-- For a positive arc width, the arc that holds a phase is unique. -/
theorem arc_unique (w theta : K) (hw : 0 < w) (i j : Nat)
    (hi0 : (i : K) * w ≤ theta) (hi1 : theta < ((i : K) + 1) * w)
    (hj0 : (j : K) * w ≤ theta) (hj1 : theta < ((j : K) + 1) * w) : j = i := by
  have h1 : (i : K) * w < ((j : K) + 1) * w := lt_of_le_of_lt hi0 hj1
  have h2 : (j : K) * w < ((i : K) + 1) * w := lt_of_le_of_lt hj0 hi1
  have h3 : (i : K) < (j : K) + 1 := lt_of_mul_lt_mul_right h1 (le_of_lt hw)
  have h4 : (j : K) < (i : K) + 1 := lt_of_mul_lt_mul_right h2 (le_of_lt hw)
  have h5 : i < j + 1 := by exact_mod_cast h3
  have h6 : j < i + 1 := by exact_mod_cast h4
  omega

end PhaseLoops

section ColorFunctions

variable {K : Type} [LinearOrderedField K] [FloorRing K]

/-- The normalized phase differs from the phase by a whole number of turns. -/
theorem theta_in_range_turns (M_PI theta : K) :
    ∃ k : Int, theta_in_range M_PI theta = theta + (k : K) * (2 * M_PI) := by
  unfold theta_in_range
  simp only
  obtain ⟨a, ha⟩ := theta_add_loop_turns (2 * M_PI) ⌈-theta / (2 * M_PI)⌉.toNat theta
  obtain ⟨b, hb⟩ := theta_sub_loop_turns (2 * M_PI)
    ⌊theta_add_loop (2 * M_PI) ⌈-theta / (2 * M_PI)⌉.toNat theta / (2 * M_PI)⌋.toNat
    (theta_add_loop (2 * M_PI) ⌈-theta / (2 * M_PI)⌉.toNat theta)
  refine ⟨(a : Int) - (b : Int), ?_⟩
  rw [hb, ha]
  push_cast
  ring

/-- A phase already in `[0, 2 * M_PI)` is returned unchanged. -/
theorem theta_in_range_of_mem (M_PI theta : K) (h0 : 0 ≤ theta) (h1 : theta < 2 * M_PI) :
    theta_in_range M_PI theta = theta := by
  unfold theta_in_range
  simp only
  rw [theta_add_loop_of_nonneg _ _ _ h0, theta_sub_loop_of_lt _ _ _ h1]

/-- For a positive `M_PI`, the loops of `theta_in_range` run with any larger
iteration counts give the same value: both loops have ended. -/
theorem theta_in_range_enough (M_PI theta : K) (hpi : 0 < M_PI) :
    ∃ N : Nat, ∀ n m : Nat, N ≤ n → N ≤ m →
      theta_sub_loop (2 * M_PI) m (theta_add_loop (2 * M_PI) n theta)
        = theta_in_range M_PI theta := by
  have hb := theta_in_range_bounds M_PI theta hpi
  have hp : (0 : K) < 2 * M_PI := by linarith
  have h1 : 0 ≤ theta_add_loop (2 * M_PI) ⌈-theta / (2 * M_PI)⌉.toNat theta := by
    apply theta_add_loop_nonneg
    have hc : -theta / (2 * M_PI) ≤ ((⌈-theta / (2 * M_PI)⌉ : Int) : K) := Int.le_ceil _
    have hn : ((⌈-theta / (2 * M_PI)⌉ : Int) : K)
        ≤ ((⌈-theta / (2 * M_PI)⌉.toNat : Nat) : K) := by
      have := Int.self_le_toNat ⌈-theta / (2 * M_PI)⌉
      exact_mod_cast this
    exact (div_le_iff₀ hp).1 (le_trans hc hn)
  refine ⟨max ⌈-theta / (2 * M_PI)⌉.toNat
    ⌊theta_add_loop (2 * M_PI) ⌈-theta / (2 * M_PI)⌉.toNat theta / (2 * M_PI)⌋.toNat, ?_⟩
  intro n m hn hm
  have hn1 : ⌈-theta / (2 * M_PI)⌉.toNat ≤ n := le_trans (le_max_left _ _) hn
  have hm1 : ⌊theta_add_loop (2 * M_PI) ⌈-theta / (2 * M_PI)⌉.toNat theta / (2 * M_PI)⌋.toNat
      ≤ m := le_trans (le_max_right _ _) hm
  rw [theta_add_loop_stable _ _ _ h1 n hn1]
  unfold theta_in_range at hb ⊢
  simp only at hb ⊢
  exact theta_sub_loop_stable _ _ _ hb.2 m hm1

/-- C11: over the reals, the normalization at the start of `get_color_rainbow`
and `get_color_stripes` terminates (from some iteration count on, running the
two loops longer gives the same value), its value lies in `[0, 2*pi)` and
differs from the phase by an integer multiple of `2*pi`, and normalizing a
normalized value returns it unchanged. -/
theorem theta_in_range_normalizes (theta : ℝ) :
    (∃ N : Nat, ∀ n m : Nat, N ≤ n → N ≤ m →
        theta_sub_loop (2 * Real.pi) m (theta_add_loop (2 * Real.pi) n theta)
          = theta_in_range Real.pi theta)
      ∧ 0 ≤ theta_in_range Real.pi theta
      ∧ theta_in_range Real.pi theta < 2 * Real.pi
      ∧ (∃ k : Int, theta_in_range Real.pi theta = theta + (k : ℝ) * (2 * Real.pi))
      ∧ theta_in_range Real.pi (theta_in_range Real.pi theta)
          = theta_in_range Real.pi theta := by
  have hb := theta_in_range_bounds Real.pi theta Real.pi_pos
  exact ⟨theta_in_range_enough Real.pi theta Real.pi_pos, hb.1, hb.2,
    theta_in_range_turns Real.pi theta,
    theta_in_range_of_mem Real.pi _ hb.1 hb.2⟩

/-! ## Hue rotation -/

/-- For a positive `M_PI`, a full turn more gives the same normalized phase. -/
theorem theta_in_range_periodic (M_PI theta : K) (hpi : 0 < M_PI) :
    theta_in_range M_PI (theta + 2 * M_PI) = theta_in_range M_PI theta := by
  have ha := theta_in_range_bounds M_PI (theta + 2 * M_PI) hpi
  have hb := theta_in_range_bounds M_PI theta hpi
  obtain ⟨ka, hka⟩ := theta_in_range_turns M_PI (theta + 2 * M_PI)
  obtain ⟨kb, hkb⟩ := theta_in_range_turns M_PI theta
  apply eq_of_turns (2 * M_PI) _ _ (ka + 1 - kb) ha.1 ha.2 hb.1 hb.2
  rw [hka, hkb]
  push_cast
  ring

/-- A value in `[0, 255]` rounds into 0..255, and the 8-bit store keeps it. -/
theorem to_uint8_lrintf_of_mem (x : K) (h0 : 0 ≤ x) (h1 : x ≤ 255) :
    ((to_uint8 (lrintf x) : Nat) : Int) = lrintf x ∧ to_uint8 (lrintf x) ≤ 255 := by
  have hfl : (0 : Int) ≤ ⌊x⌋ := Int.floor_nonneg.2 h0
  have hce : ⌈x⌉ ≤ (255 : Int) := by
    rw [Int.ceil_le]
    exact_mod_cast h1
  have hl1 := lrintf_floor_le x
  have hl2 := lrintf_le_ceil x
  unfold to_uint8
  constructor <;> omega

/-- One channel of `get_color_rainbow` for a sine value `s` in `[-1, 1]`. -/
theorem rainbow_channel (s : K) (h0 : -1 ≤ s) (h1 : s ≤ 1) :
    ((to_uint8 (lrintf ((1 * (1 / 2 + 1 / 2 * s)) * 255)) : Nat) : Int)
        = lrintf (255 * (1 / 2 + 1 / 2 * s))
      ∧ to_uint8 (lrintf ((1 * (1 / 2 + 1 / 2 * s)) * 255)) ≤ 255 := by
  have he : (1 * (1 / 2 + 1 / 2 * s)) * 255 = 255 * (1 / 2 + 1 / 2 * s) := by ring
  rw [he]
  apply to_uint8_lrintf_of_mem
  · nlinarith
  · nlinarith

/-- C12: over the reals, `get_color_rainbow` returns the same color for a phase
and for the phase plus `2*pi`, and its channels are
`lrintf (255 * (0.5 + 0.5 * sin (theta + k * 2*pi/3)))` for `k = 0` (red),
`1` (green), `2` (blue), each in 0..255 (the 8-bit store does not wrap). -/
theorem get_color_rainbow_periodic (theta : ℝ) :
    get_color_rainbow Real.sin Real.pi (theta + 2 * Real.pi)
        = get_color_rainbow Real.sin Real.pi theta
      ∧ (((get_color_rainbow Real.sin Real.pi theta).red : Int)
            = lrintf (255 * (1 / 2 + 1 / 2 * Real.sin (theta + 0 * (2 * Real.pi / 3))))
          ∧ (get_color_rainbow Real.sin Real.pi theta).red ≤ 255)
      ∧ (((get_color_rainbow Real.sin Real.pi theta).green : Int)
            = lrintf (255 * (1 / 2 + 1 / 2 * Real.sin (theta + 1 * (2 * Real.pi / 3))))
          ∧ (get_color_rainbow Real.sin Real.pi theta).green ≤ 255)
      ∧ (((get_color_rainbow Real.sin Real.pi theta).blue : Int)
            = lrintf (255 * (1 / 2 + 1 / 2 * Real.sin (theta + 2 * (2 * Real.pi / 3))))
          ∧ (get_color_rainbow Real.sin Real.pi theta).blue ≤ 255) := by
  obtain ⟨k, hk⟩ := theta_in_range_turns Real.pi theta
  have hsin : ∀ c : ℝ, Real.sin (theta_in_range Real.pi theta + c) = Real.sin (theta + c) := by
    intro c
    have : theta_in_range Real.pi theta + c = (theta + c) + (k : ℝ) * (2 * Real.pi) := by
      rw [hk]
      ring
    rw [this, Real.sin_add_int_mul_two_pi]
  have hr := rainbow_channel (Real.sin (theta + 0)) (Real.neg_one_le_sin _) (Real.sin_le_one _)
  have hg := rainbow_channel (Real.sin (theta + 2 * Real.pi / 3))
    (Real.neg_one_le_sin _) (Real.sin_le_one _)
  have hb := rainbow_channel (Real.sin (theta + 4 * Real.pi / 3))
    (Real.neg_one_le_sin _) (Real.sin_le_one _)
  have e0 : theta + 0 * (2 * Real.pi / 3) = theta + 0 := by ring
  have e1 : theta + 1 * (2 * Real.pi / 3) = theta + 2 * Real.pi / 3 := by ring
  have e2 : theta + 2 * (2 * Real.pi / 3) = theta + 4 * Real.pi / 3 := by ring
  refine ⟨?_, ?_, ?_, ?_⟩
  · unfold get_color_rainbow
    simp only
    rw [theta_in_range_periodic Real.pi theta Real.pi_pos]
  · unfold get_color_rainbow
    simp only
    rw [hsin, e0]
    exact hr
  · unfold get_color_rainbow
    simp only
    rw [hsin, e1]
    exact hg
  · unfold get_color_rainbow
    simp only
    rw [hsin, e2]
    exact hb

/-! ## Stripe interpolation -/

/-- The macro `NEXT_CYCLIC_ELEMENT` reads the position `(index + 1) mod size`. -/
theorem NEXT_CYCLIC_ELEMENT_eq (array : List Nat) (index array_size : Nat)
    (h : index < array_size) :
    NEXT_CYCLIC_ELEMENT array index array_size = array.getD ((index + 1) % array_size) 0 := by
  unfold NEXT_CYCLIC_ELEMENT
  by_cases he : index + 1 = array_size
  · rw [if_pos he, he, Nat.mod_self]
  · rw [if_neg he, Nat.mod_eq_of_lt (by omega)]

/-- The search loop of `get_color_stripes`, started at an index whose arc start
is not above the phase, with the phase below the end of the last arc, finds
an arc holding the phase and returns the mix for that arc. -/
theorem get_color_stripes_loop_finds (pow : K → K → K) (M_PI : K)
    (color_pattern : color_pattern_t K) (theta : K) (color : color_t)
    (remaining i : Nat) (hrem : i + remaining = color_pattern.stripes_count)
    (hlo : (i : K) * ((2 * M_PI) / (color_pattern.stripes_count : K)) ≤ theta)
    (hhi : theta < (color_pattern.stripes_count : K)
      * ((2 * M_PI) / (color_pattern.stripes_count : K))) :
    ∃ j : Nat, i ≤ j ∧ j < color_pattern.stripes_count
      ∧ (j : K) * ((2 * M_PI) / (color_pattern.stripes_count : K)) ≤ theta
      ∧ theta < ((j : K) + 1) * ((2 * M_PI) / (color_pattern.stripes_count : K))
      ∧ get_color_stripes_loop pow M_PI color_pattern theta color remaining i
        = mix_colors pow (color_pattern.stripes_colors.getD j 0)
            (NEXT_CYCLIC_ELEMENT color_pattern.stripes_colors j color_pattern.stripes_count)
            (1 - ((theta - (j : K) * ((2 * M_PI) / (color_pattern.stripes_count : K)))
              / ((2 * M_PI) / (color_pattern.stripes_count : K))))
            color_pattern.factor := by
  induction remaining generalizing i with
  | zero =>
    have hi : i = color_pattern.stripes_count := by omega
    rw [hi] at hlo
    exact absurd hhi (not_lt.2 hlo)
  | succ n ih =>
    by_cases hin : (i : K) * ((2 * M_PI) / (color_pattern.stripes_count : K)) ≤ theta
        ∧ ((i : K) + 1) * ((2 * M_PI) / (color_pattern.stripes_count : K)) > theta
    · refine ⟨i, le_refl i, by omega, hin.1, hin.2, ?_⟩
      simp only [get_color_stripes_loop]
      rw [if_pos hin]
    · have hnext : ((i : K) + 1) * ((2 * M_PI) / (color_pattern.stripes_count : K))
          ≤ theta := by
        by_contra hcon
        exact hin ⟨hlo, not_le.1 hcon⟩
      have hnext1 : ((i + 1 : Nat) : K) * ((2 * M_PI) / (color_pattern.stripes_count : K))
          ≤ theta := by
        push_cast
        exact hnext
      obtain ⟨j, hj1, hj2, hj3, hj4, hj5⟩ := ih (i + 1) (by omega) hnext1
      refine ⟨j, by omega, hj2, hj3, hj4, ?_⟩
      simp only [get_color_stripes_loop]
      rw [if_neg hin]
      exact hj5

/-- For a positive `M_PI`, at least one stripe and a phase in `[0, 2 * M_PI)`,
`get_color_stripes` finds the one arc holding the phase and returns the mix of
its stripe and the cyclically next one; the balance is in `(0, 1]`. -/
theorem get_color_stripes_finds (pow : K → K → K) (M_PI : K)
    (color_pattern : color_pattern_t K) (theta : K) (color : color_t)
    (hpi : 0 < M_PI) (hN : 1 ≤ color_pattern.stripes_count)
    (h0 : 0 ≤ theta) (h1 : theta < 2 * M_PI) :
    ∃ i : Nat, i < color_pattern.stripes_count
      ∧ (∀ j : Nat, ((j : K) * ((2 * M_PI) / (color_pattern.stripes_count : K)) ≤ theta
            ∧ theta < ((j : K) + 1) * ((2 * M_PI) / (color_pattern.stripes_count : K)))
          ↔ j = i)
      ∧ 0 < 1 - ((theta - (i : K) * ((2 * M_PI) / (color_pattern.stripes_count : K)))
              / ((2 * M_PI) / (color_pattern.stripes_count : K)))
      ∧ 1 - ((theta - (i : K) * ((2 * M_PI) / (color_pattern.stripes_count : K)))
              / ((2 * M_PI) / (color_pattern.stripes_count : K))) ≤ 1
      ∧ get_color_stripes pow M_PI color_pattern theta color
        = mix_colors pow (color_pattern.stripes_colors.getD i 0)
            (color_pattern.stripes_colors.getD ((i + 1) % color_pattern.stripes_count) 0)
            (1 - ((theta - (i : K) * ((2 * M_PI) / (color_pattern.stripes_count : K)))
              / ((2 * M_PI) / (color_pattern.stripes_count : K))))
            color_pattern.factor := by
  have hNpos : (0 : K) < (color_pattern.stripes_count : K) := by
    exact_mod_cast hN
  have hw : 0 < (2 * M_PI) / (color_pattern.stripes_count : K) :=
    div_pos (by linarith) hNpos
  have hfull : (color_pattern.stripes_count : K)
      * ((2 * M_PI) / (color_pattern.stripes_count : K)) = 2 * M_PI := by
    field_simp
  obtain ⟨i, -, hi1, hi2, hi3, hi4⟩ := get_color_stripes_loop_finds pow M_PI color_pattern
    theta color color_pattern.stripes_count 0 (by omega) (by simpa using h0)
    (by rw [hfull]; exact h1)
  refine ⟨i, hi1, ?_, ?_, ?_, ?_⟩
  · intro j
    constructor
    · intro hj
      exact arc_unique _ theta hw i j hi2 hi3 hj.1 hj.2
    · intro hj
      rw [hj]
      exact ⟨hi2, hi3⟩
  · have : (theta - (i : K) * ((2 * M_PI) / (color_pattern.stripes_count : K)))
        / ((2 * M_PI) / (color_pattern.stripes_count : K)) < 1 := by
      rw [div_lt_one hw]
      linarith
    linarith
  · have : 0 ≤ (theta - (i : K) * ((2 * M_PI) / (color_pattern.stripes_count : K)))
        / ((2 * M_PI) / (color_pattern.stripes_count : K)) :=
      div_nonneg (by linarith) (le_of_lt hw)
    linarith
  · unfold get_color_stripes
    simp only
    rw [theta_in_range_of_mem M_PI theta h0 h1, hi4, NEXT_CYCLIC_ELEMENT_eq _ _ _ hi1]

/-- C13: over the reals, for every color pattern with `N >= 1` stripes and every
phase in `[0, 2*pi)`, with `w = 2*pi/N` exactly one `i` in `0..N-1` has
`i*w <= theta < (i+1)*w`, the balance `1 - (theta - i*w)/w` is in `(0, 1]`, and
`get_color_stripes` returns `mix_colors` of stripe `i`, stripe `(i+1) mod N`,
that balance and the factor, whatever color the caller held: the loop always
finds an arc. -/
theorem get_color_stripes_arc (color_pattern : color_pattern_t ℝ) (theta : ℝ)
    (color : color_t) (hN : 1 ≤ color_pattern.stripes_count)
    (h0 : 0 ≤ theta) (h1 : theta < 2 * Real.pi) :
    ∃ i : Nat, i < color_pattern.stripes_count
      ∧ (∀ j : Nat, ((j : ℝ) * ((2 * Real.pi) / (color_pattern.stripes_count : ℝ)) ≤ theta
            ∧ theta < ((j : ℝ) + 1) * ((2 * Real.pi) / (color_pattern.stripes_count : ℝ)))
          ↔ j = i)
      ∧ 0 < 1 - ((theta - (i : ℝ) * ((2 * Real.pi) / (color_pattern.stripes_count : ℝ)))
              / ((2 * Real.pi) / (color_pattern.stripes_count : ℝ)))
      ∧ 1 - ((theta - (i : ℝ) * ((2 * Real.pi) / (color_pattern.stripes_count : ℝ)))
              / ((2 * Real.pi) / (color_pattern.stripes_count : ℝ))) ≤ 1
      ∧ get_color_stripes (fun b e : ℝ => b ^ e) Real.pi color_pattern theta color
        = mix_colors (fun b e : ℝ => b ^ e) (color_pattern.stripes_colors.getD i 0)
            (color_pattern.stripes_colors.getD ((i + 1) % color_pattern.stripes_count) 0)
            (1 - ((theta - (i : ℝ) * ((2 * Real.pi) / (color_pattern.stripes_count : ℝ)))
              / ((2 * Real.pi) / (color_pattern.stripes_count : ℝ))))
            color_pattern.factor :=
  get_color_stripes_finds _ Real.pi color_pattern theta color Real.pi_pos hN h0 h1

/-- The transgender stripes at phase 1: the hypotheses of C13 hold and its
conclusion is obtained for this pattern and phase. -/
theorem get_color_stripes_arc_witness :
    (1 ≤ (transgender : pattern_t ℝ).color_pattern.stripes_count
        ∧ (0 : ℝ) ≤ 1 ∧ (1 : ℝ) < 2 * Real.pi)
      ∧ ∃ i : Nat, i < (transgender : pattern_t ℝ).color_pattern.stripes_count
        ∧ (∀ j : Nat, ((j : ℝ) * ((2 * Real.pi)
                / ((transgender : pattern_t ℝ).color_pattern.stripes_count : ℝ)) ≤ 1
              ∧ 1 < ((j : ℝ) + 1) * ((2 * Real.pi)
                / ((transgender : pattern_t ℝ).color_pattern.stripes_count : ℝ)))
            ↔ j = i)
        ∧ 0 < 1 - ((1 - (i : ℝ) * ((2 * Real.pi)
                / ((transgender : pattern_t ℝ).color_pattern.stripes_count : ℝ)))
              / ((2 * Real.pi) / ((transgender : pattern_t ℝ).color_pattern.stripes_count : ℝ)))
        ∧ 1 - ((1 - (i : ℝ) * ((2 * Real.pi)
                / ((transgender : pattern_t ℝ).color_pattern.stripes_count : ℝ)))
              / ((2 * Real.pi) / ((transgender : pattern_t ℝ).color_pattern.stripes_count : ℝ)))
            ≤ 1
        ∧ get_color_stripes (fun b e : ℝ => b ^ e) Real.pi
            (transgender : pattern_t ℝ).color_pattern 1 { red := 0, green := 0, blue := 0 }
          = mix_colors (fun b e : ℝ => b ^ e)
              ((transgender : pattern_t ℝ).color_pattern.stripes_colors.getD i 0)
              ((transgender : pattern_t ℝ).color_pattern.stripes_colors.getD
                ((i + 1) % (transgender : pattern_t ℝ).color_pattern.stripes_count) 0)
              (1 - ((1 - (i : ℝ) * ((2 * Real.pi)
                  / ((transgender : pattern_t ℝ).color_pattern.stripes_count : ℝ)))
                / ((2 * Real.pi)
                  / ((transgender : pattern_t ℝ).color_pattern.stripes_count : ℝ))))
              (transgender : pattern_t ℝ).color_pattern.factor := by
  have hpi : (1 : ℝ) < 2 * Real.pi := by
    have := Real.pi_gt_three
    linarith
  have hN : 1 ≤ (transgender : pattern_t ℝ).color_pattern.stripes_count := by
    simp [transgender]
  exact ⟨⟨hN, by norm_num, hpi⟩,
    get_color_stripes_arc (transgender : pattern_t ℝ).color_pattern 1
      { red := 0, green := 0, blue := 0 } hN (by norm_num) hpi⟩

/-! ## Continuity at the arc boundaries -/

/-- The value `mix_colors` returns is its unrounded blend, rounded by `lrintf`
and stored in 8 bits, channel by channel. -/
theorem mix_colors_eq_rounded (pow : K → K → K) (color1 color2 : Nat) (balance factor : K) :
    mix_colors pow color1 color2 balance factor
      = { red := to_uint8 (lrintf (mix_colors_unrounded pow color1 color2 balance factor).1)
          green := to_uint8
            (lrintf (mix_colors_unrounded pow color1 color2 balance factor).2.1)
          blue := to_uint8
            (lrintf (mix_colors_unrounded pow color1 color2 balance factor).2.2) } :=
  rfl

end ColorFunctions

section Catalog

variable {K : Type} [LinearOrderedField K]

/-- An identifier that `get_pattern` accepts is one of 0..9. -/
theorem get_pattern_some_range (ft : Int) (p : pattern_t K) (h : get_pattern ft = some p) :
    0 ≤ ft ∧ ft ≤ 9 := by
  have hne : (get_pattern ft : Option (pattern_t K)) ≠ none := by
    rw [h]
    exact Option.some_ne_none p
  have hr : ¬ (ft < 0 ∨ 9 < ft) := fun hbad => hne ((get_pattern_eq_none_iff ft).2 hbad)
  omega

/-- Every pattern `get_pattern` returns lists between 1 and 30 palette codes,
as many as its `codes_count`. -/
theorem catalog_codes_count (ft : Int) (p : pattern_t K) (h : get_pattern ft = some p) :
    1 ≤ p.ansii_pattern.codes_count ∧ p.ansii_pattern.codes_count ≤ 30
      ∧ p.ansii_pattern.ansii_codes.length = p.ansii_pattern.codes_count := by
  obtain ⟨h0, h9⟩ := get_pattern_some_range ft p h
  interval_cases ft <;> simp only [get_pattern, Option.some.injEq] at h <;> subst h
  · simp [rainbow]
  · simp [transgender]
  · simp [nonbinary]
  · simp [lesbian]
  · simp [gay]
  · simp [pansexual]
  · simp [bisexual]
  · simp [gender_fluid]
  · simp [asexual]
  · simp [unlabeled]

/-- C15: every pattern `get_pattern` returns has between 1 and 30 palette codes,
as many as `codes_count` says; when its color function is stripe interpolation
it has between 1 and 6 stripes, as many as `stripes_count` says, and a positive
easing factor; it uses hue rotation exactly when it is the rainbow pattern
(identifier 0), and its color pattern is empty exactly then. -/
theorem catalog_invariants (ft : Int) (p : pattern_t K) (h : get_pattern ft = some p) :
    (1 ≤ p.ansii_pattern.codes_count ∧ p.ansii_pattern.codes_count ≤ 30
        ∧ p.ansii_pattern.ansii_codes.length = p.ansii_pattern.codes_count)
      ∧ (p.get_color = get_color_f.get_color_stripes →
          1 ≤ p.color_pattern.stripes_count ∧ p.color_pattern.stripes_count ≤ 6
            ∧ p.color_pattern.stripes_colors.length = p.color_pattern.stripes_count
            ∧ 0 < p.color_pattern.factor)
      ∧ (p.get_color = get_color_f.get_color_rainbow ↔ ft = 0)
      ∧ ((p.color_pattern.stripes_count = 0 ∧ p.color_pattern.stripes_colors = []) ↔ ft = 0) := by
  obtain ⟨h0, h9⟩ := get_pattern_some_range ft p h
  interval_cases ft <;> simp only [get_pattern, Option.some.injEq] at h <;> subst h
  · simp [rainbow]
  · simp [transgender]
  · simp [nonbinary]
  · simp [lesbian]
  · simp [gay]
  · simp [pansexual]
  · simp [bisexual]
  · simp [gender_fluid]
  · simp [asexual]
  · simp [unlabeled]

/-- The transgender pattern, identifier 1. -/
theorem catalog_invariants_witness :
    (get_pattern 1 : Option (pattern_t ℚ)) = some transgender
      ∧ (1 ≤ (transgender : pattern_t ℚ).ansii_pattern.codes_count
        ∧ (transgender : pattern_t ℚ).ansii_pattern.codes_count ≤ 30
        ∧ (transgender : pattern_t ℚ).ansii_pattern.ansii_codes.length
            = (transgender : pattern_t ℚ).ansii_pattern.codes_count) :=
  ⟨rfl, (catalog_invariants 1 (transgender : pattern_t ℚ) rfl).1⟩

/-- The unsigned conversion does not see a wrap of the signed sum: adding any
multiple of `2^32` gives the same unsigned value. -/
theorem int_to_unsigned_wrap (v k : Int) :
    int_to_unsigned (v + k * 4294967296) = int_to_unsigned v := by
  unfold int_to_unsigned
  rw [Int.add_mul_emod_self]

/-- C20: for every pattern `get_pattern` returns, every random offset and every
index (negative ones included, and whether or not the signed sum wrapped
modulo `2^32`), the position `print_color` reads is below `codes_count`, which
is at most 30 and is the number of codes the pattern lists: the lookup stays
inside the code list. -/
theorem palette_position_in_bounds (ft : Int) (p : pattern_t K)
    (h : get_pattern ft = some p) (r i k : Int) :
    print_color_position p r i < p.ansii_pattern.codes_count
      ∧ p.ansii_pattern.codes_count ≤ 30
      ∧ print_color_position p r i < p.ansii_pattern.ansii_codes.length
      ∧ int_to_unsigned (r + i + k * 4294967296) % p.ansii_pattern.codes_count
          = print_color_position p r i := by
  have hn := catalog_codes_count ft p h
  have hlt : print_color_position p r i < p.ansii_pattern.codes_count := by
    unfold print_color_position
    exact Nat.mod_lt _ (by omega)
  refine ⟨hlt, hn.2.1, by omega, ?_⟩
  unfold print_color_position
  rw [int_to_unsigned_wrap]

/-- The rainbow pattern with random offset 0 and index -2: the position read
is 14. -/
theorem palette_position_in_bounds_witness :
    (get_pattern 0 : Option (pattern_t ℚ)) = some rainbow
      ∧ print_color_position (rainbow : pattern_t ℚ) 0 (-2)
          < (rainbow : pattern_t ℚ).ansii_pattern.codes_count
      ∧ print_color_position (rainbow : pattern_t ℚ) 0 (-2) = 14 :=
  ⟨rfl, (palette_position_in_bounds 0 (rainbow : pattern_t ℚ) rfl 0 (-2) 0).1, by decide⟩

end Catalog

section LoopSteps

variable {K : Type} [LinearOrderedField K] [FloorRing K]

/-! ## One character at a time -/

/-- In 24-bit mode `print_color` writes exactly one true-color escape, the one
of `spec_truecolor_escape`, whatever `cc` is. -/
theorem print_color_24bit (L : Libc K) (cfg : Config K) (pattern : pattern_t K)
    (ci li cc : Int) (hb : cfg.bit24 = true) :
    print_color L pattern cfg.color_type ci li cfg.freq_h cfg.freq_v cfg.offx
        cfg.rand_offset cc
      = some [spec_truecolor_escape L cfg pattern ci li] := by
  unfold spec_truecolor_escape spec_phase
  cases hg : pattern.get_color <;>
    simp [Config.color_type, hb, print_color, call_get_color, hg, print_color_theta]

/-- With coloring active, a newline classified `OUT` is written alone; the row
grows by one and the column becomes 0. -/
theorem loop_body_newline (L : Libc K) (cfg : Config K) (pattern : pattern_t K)
    (s : loop_vars) (hc : cfg.print_colors = true)
    (h : find_escape_sequences 10 s.escape_state = .ESCAPE_STATE_OUT) :
    loop_body L cfg pattern s 10
      = ([Out.putwchar 10],
          some { s with escape_state := .ESCAPE_STATE_OUT,
                        line_index := s.line_index + 1, char_index := 0 }) := by
  simp [loop_body, handle_colors, after_putwchar, hc, h]

/-- With coloring active, another character classified `OUT` adds its width to
the column, and what `print_color` writes for the new column precedes it. -/
theorem loop_body_ordinary (L : Libc K) (cfg : Config K) (pattern : pattern_t K)
    (s : loop_vars) (c : Nat) (hc : cfg.print_colors = true)
    (h : find_escape_sequences c s.escape_state = .ESCAPE_STATE_OUT) (hn : c ≠ 10) :
    ∃ o, print_color L pattern cfg.color_type (s.char_index + L.wcwidth c) s.line_index
          cfg.freq_h cfg.freq_v cfg.offx cfg.rand_offset s.cc = some o
      ∧ loop_body L cfg pattern s c
        = (o ++ [Out.putwchar c],
            some { s with escape_state := .ESCAPE_STATE_OUT,
                          char_index := s.char_index + L.wcwidth c }) := by
  obtain ⟨o, ho, -⟩ := print_color_main L cfg pattern (s.char_index + L.wcwidth c)
    s.line_index s.cc
  refine ⟨o, ho, ?_⟩
  simp [loop_body, handle_colors, after_putwchar, hc, h, hn, ho]

/-- With coloring not active, the variables are left as they are. -/
theorem loop_body_plain (L : Libc K) (cfg : Config K) (pattern : pattern_t K)
    (s : loop_vars) (c : Nat) (hc : cfg.print_colors = false) :
    ∃ out, loop_body L cfg pattern s c = (out, some s) := by
  obtain ⟨o, ho, -⟩ := print_color_main L cfg pattern s.char_index s.line_index s.cc
  by_cases hl : s.escape_state = .ESCAPE_STATE_LAST
  · exact ⟨Out.putwchar c :: o,
      by simp [loop_body, handle_colors, after_putwchar, hc, hl, ho]⟩
  · exact ⟨[Out.putwchar c], by simp [loop_body, handle_colors, after_putwchar, hc, hl]⟩

/-- The escape character is always classified `IN`. -/
theorem find_escape_sequences_esc (state : escape_state_t) :
    find_escape_sequences 27 state = .ESCAPE_STATE_IN := by
  simp [find_escape_sequences]

/-- What one iteration does to the counters: the row never decreases; the
column becomes 0, stays, or grows by the width of a character that is neither
the newline nor the escape character. -/
theorem loop_body_counters (L : Libc K) (cfg : Config K) (pattern : pattern_t K)
    (s : loop_vars) (c : Nat) :
    ∃ out s1, loop_body L cfg pattern s c = (out, some s1)
      ∧ s.line_index ≤ s1.line_index
      ∧ (s1.char_index = 0 ∨ s1.char_index = s.char_index
          ∨ (s1.char_index = s.char_index + L.wcwidth c ∧ c ≠ 10 ∧ c ≠ 27)) := by
  by_cases hc : cfg.print_colors = true
  · cases hst : find_escape_sequences c s.escape_state with
    | ESCAPE_STATE_OUT =>
      by_cases hn : c = 10
      · subst hn
        exact ⟨_, _, loop_body_newline L cfg pattern s hc hst, by simp, Or.inl rfl⟩
      · obtain ⟨o, -, hb⟩ := loop_body_ordinary L cfg pattern s c hc hst hn
        have h27 : c ≠ 27 := by
          intro h
          rw [h, find_escape_sequences_esc] at hst
          exact escape_state_t.noConfusion hst
        exact ⟨_, _, hb, le_refl _, Or.inr (Or.inr ⟨rfl, hn, h27⟩)⟩
    | ESCAPE_STATE_IN =>
      exact ⟨_, _, loop_body_in L cfg pattern s c hc hst, le_refl _, Or.inr (Or.inl rfl)⟩
    | ESCAPE_STATE_LAST =>
      obtain ⟨after, ha, -⟩ := loop_body_last L cfg pattern s c hc hst
      exact ⟨_, _, ha, le_refl _, Or.inr (Or.inl rfl)⟩
  · obtain ⟨out, ho⟩ := loop_body_plain L cfg pattern s c (by simpa using hc)
    exact ⟨out, s, ho, le_refl _, Or.inr (Or.inl rfl)⟩

/-! ## Column and row -/

/-- C16 (counterexample): a stream holding one tab character, whose display
width is -1, leaves the column at -1. -/
theorem column_negative_after_tab :
    wcwidth_ascii 9 = -1
      ∧ process_file libc_eval cfg_flat rainbow main_vars_init [9]
        = ([Out.ansi 39, Out.putwchar 9, Out.reset],
            some { cc := -1, char_index := -1, line_index := 0 })
      ∧ ¬ (0 ≤ (-1 : Int)) := by
  refine ⟨by decide, ?_, by decide⟩
  simp [process_file, read_loop, loop_body, handle_colors, after_putwchar, print_color,
    print_color_ncc, print_color_position, double_to_int, int_to_unsigned,
    find_escape_sequences, Config.color_type, cfg_flat, rainbow, main_vars_init,
    libc_eval, wcwidth_ascii]

/-- Over a stream the row never decreases. -/
theorem read_loop_row_mono (L : Libc K) (cfg : Config K) (pattern : pattern_t K)
    (input : List Nat) (s : loop_vars) :
    ∃ out s1, read_loop L cfg pattern s input = (out, some s1)
      ∧ s.line_index ≤ s1.line_index := by
  induction input generalizing s with
  | nil => exact ⟨[], s, rfl, le_refl _⟩
  | cons c rest ih =>
    obtain ⟨o, s1, hb, hr1, -⟩ := loop_body_counters L cfg pattern s c
    obtain ⟨o2, s2, hrl, h2⟩ := ih s1
    exact ⟨o ++ o2, s2, by simp [read_loop, hb, hrl], le_trans hr1 h2⟩

/-- C16 (amended): from a column and a row that are not negative, after every
processed character the row is not negative (it never decreases), and the
column is not negative as long as every processed character other than the
newline and the escape character has a display width that is not negative. -/
theorem counters_nonneg (L : Libc K) (cfg : Config K) (pattern : pattern_t K)
    (processed : List Nat) (s : loop_vars)
    (hcol : 0 ≤ s.char_index) (hrow : 0 ≤ s.line_index) :
    ∃ out s1, read_loop L cfg pattern s processed = (out, some s1)
      ∧ 0 ≤ s1.line_index ∧ s.line_index ≤ s1.line_index
      ∧ ((∀ c ∈ processed, c ≠ 10 → c ≠ 27 → 0 ≤ L.wcwidth c) → 0 ≤ s1.char_index) := by
  induction processed generalizing s with
  | nil => exact ⟨[], s, rfl, hrow, le_refl _, fun _ => hcol⟩
  | cons c rest ih =>
    obtain ⟨o, s1, hb, hr1, hc1⟩ := loop_body_counters L cfg pattern s c
    by_cases hw : 0 ≤ s1.char_index
    · obtain ⟨o2, s2, hrl, h1, h2, h3⟩ := ih s1 hw (le_trans hrow hr1)
      refine ⟨o ++ o2, s2, by simp [read_loop, hb, hrl], h1, le_trans hr1 h2, ?_⟩
      intro hall
      exact h3 (fun x hx => hall x (List.mem_cons_of_mem c hx))
    · obtain ⟨o2, s2, hrl, hrow2⟩ := read_loop_row_mono L cfg pattern rest s1
      refine ⟨o ++ o2, s2, by simp [read_loop, hb, hrl], le_trans hrow (le_trans hr1 hrow2),
        le_trans hr1 hrow2, ?_⟩
      intro hall
      exfalso
      rcases hc1 with h0 | h0 | ⟨h0, hn, h27⟩
      · exact hw (by rw [h0])
      · exact hw (by rw [h0]; exact hcol)
      · have := hall c (List.mem_cons_self c rest) hn h27
        exact hw (by rw [h0]; omega)

/-- The stream `"AB\nC"` from column 0 and row 0: every character other than
the newline has width 1. -/
theorem counters_nonneg_witness :
    ((0 : Int) ≤ 0 ∧ (0 : Int) ≤ 0)
      ∧ ∃ out s1, read_loop libc_eval cfg_step rainbow
            { cc := -1, char_index := 0, line_index := 0,
              escape_state := escape_state_t.ESCAPE_STATE_OUT } [65, 66, 10, 67]
            = (out, some s1)
          ∧ 0 ≤ s1.line_index ∧ (0 : Int) ≤ s1.line_index
          ∧ ((∀ c ∈ [65, 66, 10, 67], c ≠ 10 → c ≠ 27 → 0 ≤ libc_eval.wcwidth c)
              → 0 ≤ s1.char_index) :=
  ⟨⟨le_refl _, le_refl _⟩,
    counters_nonneg libc_eval cfg_step rainbow [65, 66, 10, 67]
      { cc := -1, char_index := 0, line_index := 0,
        escape_state := escape_state_t.ESCAPE_STATE_OUT } (le_refl _) (le_refl _)⟩

/-- C17 (counterexample): in the stream `"A\b"` the letter takes the column to
1 and the backspace, whose display width is -1 and which is not a newline,
takes it to 0. -/
theorem column_zero_after_backspace :
    wcwidth_ascii 8 = -1
      ∧ process_file libc_eval cfg_flat rainbow main_vars_init [65]
        = ([Out.ansi 39, Out.putwchar 65, Out.reset],
            some { cc := -1, char_index := 1, line_index := 0 })
      ∧ process_file libc_eval cfg_flat rainbow main_vars_init [65, 8]
        = ([Out.ansi 39, Out.putwchar 65, Out.ansi 39, Out.putwchar 8, Out.reset],
            some { cc := -1, char_index := 0, line_index := 0 })
      ∧ (8 : Nat) ≠ 10 := by
  refine ⟨by decide, ?_, ?_, by decide⟩
  · simp [process_file, read_loop, loop_body, handle_colors, after_putwchar, print_color,
      print_color_ncc, print_color_position, double_to_int, int_to_unsigned,
      find_escape_sequences, Config.color_type, cfg_flat, rainbow, main_vars_init,
      libc_eval, wcwidth_ascii]
  · simp [process_file, read_loop, loop_body, handle_colors, after_putwchar, print_color,
      print_color_ncc, print_color_position, double_to_int, int_to_unsigned,
      find_escape_sequences, Config.color_type, cfg_flat, rainbow, main_vars_init,
      libc_eval, wcwidth_ascii]

/-- C17 (amended): with coloring active, in both color modes, a newline
classified `OUT` is written with no escape before or after it, adds one to the
row and sets the column to 0; no other character changes the row; another
character classified `OUT` adds its display width to the column; a character
classified `IN` or `LAST` leaves the column as it is; and a newline read in
state `IN` stays in state `IN` and changes neither counter. -/
theorem newline_and_counters (L : Libc K) (cfg : Config K) (pattern : pattern_t K)
    (s : loop_vars) (c : Nat) (hc : cfg.print_colors = true) :
    ∃ out s1, loop_body L cfg pattern s c = (out, some s1)
      ∧ s1.escape_state = find_escape_sequences c s.escape_state
      ∧ (find_escape_sequences c s.escape_state = .ESCAPE_STATE_OUT ∧ c = 10 →
          out = [Out.putwchar c] ∧ s1.line_index = s.line_index + 1 ∧ s1.char_index = 0)
      ∧ (¬ (find_escape_sequences c s.escape_state = .ESCAPE_STATE_OUT ∧ c = 10) →
          s1.line_index = s.line_index)
      ∧ (find_escape_sequences c s.escape_state = .ESCAPE_STATE_OUT ∧ c ≠ 10 →
          s1.char_index = s.char_index + L.wcwidth c)
      ∧ (find_escape_sequences c s.escape_state ≠ .ESCAPE_STATE_OUT →
          s1.char_index = s.char_index)
      ∧ (c = 10 ∧ s.escape_state = .ESCAPE_STATE_IN →
          s1.escape_state = .ESCAPE_STATE_IN ∧ s1.line_index = s.line_index
            ∧ s1.char_index = s.char_index) := by
  have hnl : s.escape_state = .ESCAPE_STATE_IN →
      find_escape_sequences 10 s.escape_state = .ESCAPE_STATE_IN := by
    intro h
    simp [find_escape_sequences, h, IS_LETTER]
  cases hst : find_escape_sequences c s.escape_state with
  | ESCAPE_STATE_OUT =>
    by_cases hn : c = 10
    · subst hn
      refine ⟨_, _, loop_body_newline L cfg pattern s hc hst, rfl, ?_, ?_, ?_, ?_, ?_⟩
      · intro _
        exact ⟨rfl, rfl, rfl⟩
      · intro h
        exact absurd ⟨rfl, rfl⟩ h
      · intro h
        exact absurd rfl h.2
      · intro h
        exact absurd rfl h
      · intro h
        rw [hnl h.2] at hst
        exact escape_state_t.noConfusion hst
    · obtain ⟨o, -, hb⟩ := loop_body_ordinary L cfg pattern s c hc hst hn
      refine ⟨_, _, hb, rfl, ?_, ?_, ?_, ?_, ?_⟩
      · intro h
        exact absurd h.2 hn
      · intro _
        rfl
      · intro _
        rfl
      · intro h
        exact absurd rfl h
      · intro h
        exact absurd h.1 hn
  | ESCAPE_STATE_IN =>
    refine ⟨_, _, loop_body_in L cfg pattern s c hc hst, rfl, ?_, ?_, ?_, ?_, ?_⟩
    · intro h
      exact escape_state_t.noConfusion h.1
    · intro _
      rfl
    · intro h
      exact escape_state_t.noConfusion h.1
    · intro _
      rfl
    · intro _
      exact ⟨rfl, rfl, rfl⟩
  | ESCAPE_STATE_LAST =>
    obtain ⟨after, ha, -⟩ := loop_body_last L cfg pattern s c hc hst
    refine ⟨_, _, ha, rfl, ?_, ?_, ?_, ?_, ?_⟩
    · intro h
      exact escape_state_t.noConfusion h.1
    · intro _
      rfl
    · intro h
      exact escape_state_t.noConfusion h.1
    · intro _
      rfl
    · intro h
      rw [h.1, hnl h.2] at hst
      exact escape_state_t.noConfusion hst

/-- A newline at column 3 of row 0 in state `OUT` under `cfg_step`: the
hypothesis of C17 holds and its conclusion is obtained for this character. -/
theorem newline_and_counters_witness :
    cfg_step.print_colors = true
      ∧ ∃ out s1, loop_body libc_eval cfg_step rainbow
            { cc := -1, char_index := 3, line_index := 0,
              escape_state := escape_state_t.ESCAPE_STATE_OUT } 10 = (out, some s1)
          ∧ s1.escape_state
            = find_escape_sequences 10 escape_state_t.ESCAPE_STATE_OUT
          ∧ (find_escape_sequences 10 escape_state_t.ESCAPE_STATE_OUT
                = escape_state_t.ESCAPE_STATE_OUT ∧ 10 = 10 →
              out = [Out.putwchar 10] ∧ s1.line_index = 0 + 1 ∧ s1.char_index = 0) := by
  obtain ⟨out, s1, hb, hs, hnl, -⟩ := newline_and_counters libc_eval cfg_step rainbow
    { cc := -1, char_index := 3, line_index := 0,
      escape_state := escape_state_t.ESCAPE_STATE_OUT } 10 rfl
  exact ⟨rfl, out, s1, hb, hs, hnl⟩

/-! ## True-color emission and foreign escape sequences

The statements of this part take the arithmetic as exact, as the embedding
does; the phase loops in binary32 arithmetic are the subject of the last
section. -/

/-- The color of `spec_truecolor_escape`, written out: the phase is
`column * freq_h / 5 + row * freq_v + (offx + 2 * rand_offset / RAND_MAX) * M_PI`,
and the channels are those of `get_color_rainbow` at that phase for a pattern
whose color function is `get_color_rainbow`, those of `get_color_stripes` on
the pattern's stripes at that phase (from the color `{0, 0, 0}`) for a pattern
whose color function is `get_color_stripes`. -/
theorem spec_truecolor_escape_color (L : Libc K) (cfg : Config K) (pattern : pattern_t K)
    (column row : Int) :
    ∃ (theta : K) (color : color_t),
      theta = (column : K) * cfg.freq_h / 5 + (row : K) * cfg.freq_v
          + (cfg.offx + 2 * (cfg.rand_offset : K) / L.RAND_MAX) * L.M_PI
        ∧ (pattern.get_color = .get_color_rainbow →
            color = get_color_rainbow L.sin L.M_PI theta)
        ∧ (pattern.get_color = .get_color_stripes →
            color = get_color_stripes L.pow L.M_PI pattern.color_pattern theta
              { red := 0, green := 0, blue := 0 })
        ∧ spec_truecolor_escape L cfg pattern column row
          = Out.rgb color.red color.green color.blue := by
  cases hg : pattern.get_color
  · refine ⟨_, get_color_rainbow L.sin L.M_PI (spec_phase L cfg column row), rfl,
      fun _ => rfl, (fun h => by cases h), ?_⟩
    simp [spec_truecolor_escape, hg]
  · refine ⟨_, get_color_stripes L.pow L.M_PI pattern.color_pattern
      (spec_phase L cfg column row) { red := 0, green := 0, blue := 0 }, rfl,
      (fun h => by cases h), fun _ => rfl, ?_⟩
    simp [spec_truecolor_escape, hg]

/-- With coloring active, a character classified `OUT` is the last thing its
iteration writes, what stands before it holds no character, and the state it
leaves is `OUT`. -/
theorem loop_body_out (L : Libc K) (cfg : Config K) (pattern : pattern_t K)
    (s : loop_vars) (c : Nat) (hc : cfg.print_colors = true)
    (h : find_escape_sequences c s.escape_state = .ESCAPE_STATE_OUT) :
    ∃ before s1, loop_body L cfg pattern s c = (before ++ [Out.putwchar c], some s1)
      ∧ chars_written before = [] ∧ s1.escape_state = .ESCAPE_STATE_OUT := by
  by_cases hn : c = 10
  · subst hn
    exact ⟨[], { s with escape_state := .ESCAPE_STATE_OUT,
                        line_index := s.line_index + 1, char_index := 0 },
      loop_body_newline L cfg pattern s hc h, rfl, rfl⟩
  · obtain ⟨o, -, hbody⟩ := loop_body_ordinary L cfg pattern s c hc h hn
    obtain ⟨o1, ho1, ho2, -⟩ := print_color_main L cfg pattern (s.char_index + L.wcwidth c)
      s.line_index s.cc
    have hbody1 : loop_body L cfg pattern s c
        = (o1 ++ [Out.putwchar c],
            some { s with escape_state := .ESCAPE_STATE_OUT,
                          char_index := s.char_index + L.wcwidth c }) := by
      simp [loop_body, handle_colors, after_putwchar, hc, h, hn, ho1]
    exact ⟨o1, { s with escape_state := .ESCAPE_STATE_OUT,
                        char_index := s.char_index + L.wcwidth c }, hbody1, ho2, rfl⟩

/-- A character classified `OUT` is not the escape character, and is classified
`OUT` from every state but `IN`. -/
theorem find_escape_sequences_out (c : Nat) (state other : escape_state_t)
    (h : find_escape_sequences c state = .ESCAPE_STATE_OUT)
    (ho : other ≠ .ESCAPE_STATE_IN) :
    find_escape_sequences c other = .ESCAPE_STATE_OUT := by
  have h27 : c ≠ 27 := by
    intro h0
    rw [h0] at h
    simp [find_escape_sequences] at h
  simp [find_escape_sequences, h27, ho]

/-- C18 (counterexample): in 24-bit mode with coloring active (`cfg_24bit`), in
the stream `ESC [ m B` the character `B` is classified `OUT` and is not a
newline, and two true-color escapes stand between `m` and `B`: the one written
after the letter `m`, which ends the foreign sequence, and the one written for
`B`. -/
theorem two_escapes_before_character :
    (read_loop libc_eval cfg_24bit rainbow
        { cc := -1, char_index := 0, line_index := 0,
          escape_state := escape_state_t.ESCAPE_STATE_OUT } [27, 91, 109]).2
        = some { cc := -1, char_index := 0, line_index := 0,
                 escape_state := escape_state_t.ESCAPE_STATE_LAST }
      ∧ find_escape_sequences 66 escape_state_t.ESCAPE_STATE_LAST
        = escape_state_t.ESCAPE_STATE_OUT
      ∧ (66 : Nat) ≠ 10
      ∧ ∃ r1 g1 b1 r2 g2 b2 : Nat,
        read_loop libc_eval cfg_24bit rainbow
          { cc := -1, char_index := 0, line_index := 0,
            escape_state := escape_state_t.ESCAPE_STATE_OUT } [27, 91, 109, 66]
        = ([Out.putwchar 27, Out.putwchar 91, Out.putwchar 109,
            Out.rgb r1 g1 b1, Out.rgb r2 g2 b2, Out.putwchar 66],
            some { cc := -1, char_index := 1, line_index := 0,
                   escape_state := escape_state_t.ESCAPE_STATE_OUT }) := by
  have h1 := print_color_24bit libc_eval cfg_24bit rainbow 0 0 (-1) rfl
  have h2 := print_color_24bit libc_eval cfg_24bit rainbow 1 0 (-1) rfl
  have hp : cfg_24bit.print_colors = true := rfl
  refine ⟨?_, by decide, by decide, ?_⟩
  · simp [read_loop, loop_body, handle_colors, after_putwchar, find_escape_sequences,
      IS_LETTER, hp, h1]
  · have e1 : spec_truecolor_escape libc_eval cfg_24bit rainbow 0 0
        = Out.rgb (get_color_rainbow libc_eval.sin libc_eval.M_PI
              (spec_phase libc_eval cfg_24bit 0 0)).red
            (get_color_rainbow libc_eval.sin libc_eval.M_PI
              (spec_phase libc_eval cfg_24bit 0 0)).green
            (get_color_rainbow libc_eval.sin libc_eval.M_PI
              (spec_phase libc_eval cfg_24bit 0 0)).blue := rfl
    have e2 : spec_truecolor_escape libc_eval cfg_24bit rainbow 1 0
        = Out.rgb (get_color_rainbow libc_eval.sin libc_eval.M_PI
              (spec_phase libc_eval cfg_24bit 1 0)).red
            (get_color_rainbow libc_eval.sin libc_eval.M_PI
              (spec_phase libc_eval cfg_24bit 1 0)).green
            (get_color_rainbow libc_eval.sin libc_eval.M_PI
              (spec_phase libc_eval cfg_24bit 1 0)).blue := rfl
    rw [e1] at h1
    rw [e2] at h2
    have hw : (0 : Int) + libc_eval.wcwidth 66 = 1 := by decide
    have hfinal : read_loop libc_eval cfg_24bit rainbow
          { cc := -1, char_index := 0, line_index := 0,
            escape_state := escape_state_t.ESCAPE_STATE_OUT } [27, 91, 109, 66]
        = ([Out.putwchar 27, Out.putwchar 91, Out.putwchar 109,
            Out.rgb (get_color_rainbow libc_eval.sin libc_eval.M_PI
                (spec_phase libc_eval cfg_24bit 0 0)).red
              (get_color_rainbow libc_eval.sin libc_eval.M_PI
                (spec_phase libc_eval cfg_24bit 0 0)).green
              (get_color_rainbow libc_eval.sin libc_eval.M_PI
                (spec_phase libc_eval cfg_24bit 0 0)).blue,
            Out.rgb (get_color_rainbow libc_eval.sin libc_eval.M_PI
                (spec_phase libc_eval cfg_24bit 1 0)).red
              (get_color_rainbow libc_eval.sin libc_eval.M_PI
                (spec_phase libc_eval cfg_24bit 1 0)).green
              (get_color_rainbow libc_eval.sin libc_eval.M_PI
                (spec_phase libc_eval cfg_24bit 1 0)).blue,
            Out.putwchar 66],
            some { cc := -1, char_index := 1, line_index := 0,
                   escape_state := escape_state_t.ESCAPE_STATE_OUT }) := by
      simp [read_loop, loop_body, handle_colors, after_putwchar, find_escape_sequences,
        IS_LETTER, hp, h1, hw, h2]
    exact ⟨_, _, _, _, _, _, hfinal⟩

/-- C18 (amended): in 24-bit mode with coloring active, the arithmetic taken as
exact, the loop iteration of a character classified `OUT` that is not a
newline writes exactly one true-color escape and then the character, whatever
was written before (`cc` plays no part), and adds the display width to the
column before the escape is computed; the color of the escape is the pattern's
color function (`get_color_rainbow`, or `get_color_stripes` on the pattern's
stripes) at the phase
`column * freqH / 5 + row * freqV + (baseOffset + 2 * randomOffset / RAND_MAX) * pi`.
After a predecessor classified `OUT` that escape alone stands between the two
characters; after a predecessor classified `LAST` (the end of a foreign escape
sequence) two escapes stand between them, the first computed at the column
before the width was added. -/
theorem truecolor_before_every_character (L : Libc K) (cfg : Config K)
    (pattern : pattern_t K) (s : loop_vars) (c : Nat)
    (hc : cfg.print_colors = true) (hb : cfg.bit24 = true)
    (hst : find_escape_sequences c s.escape_state = .ESCAPE_STATE_OUT) (hn : c ≠ 10) :
    loop_body L cfg pattern s c
        = ([spec_truecolor_escape L cfg pattern (s.char_index + L.wcwidth c) s.line_index,
            Out.putwchar c],
            some { s with escape_state := .ESCAPE_STATE_OUT,
                          char_index := s.char_index + L.wcwidth c })
      ∧ (∀ column row : Int, ∃ (theta : K) (color : color_t),
          theta = (column : K) * cfg.freq_h / 5 + (row : K) * cfg.freq_v
              + (cfg.offx + 2 * (cfg.rand_offset : K) / L.RAND_MAX) * L.M_PI
            ∧ (pattern.get_color = .get_color_rainbow →
                color = get_color_rainbow L.sin L.M_PI theta)
            ∧ (pattern.get_color = .get_color_stripes →
                color = get_color_stripes L.pow L.M_PI pattern.color_pattern theta
                  { red := 0, green := 0, blue := 0 })
            ∧ spec_truecolor_escape L cfg pattern column row
              = Out.rgb color.red color.green color.blue)
      ∧ (∀ (t : loop_vars) (p : Nat),
          find_escape_sequences p t.escape_state = .ESCAPE_STATE_OUT →
          ∃ before t1, loop_body L cfg pattern t p = (before ++ [Out.putwchar p], some t1)
            ∧ read_loop L cfg pattern t [p, c]
              = (before ++ [Out.putwchar p,
                    spec_truecolor_escape L cfg pattern (t1.char_index + L.wcwidth c)
                      t1.line_index,
                    Out.putwchar c],
                  some { t1 with escape_state := .ESCAPE_STATE_OUT,
                                 char_index := t1.char_index + L.wcwidth c }))
      ∧ (∀ (t : loop_vars) (l : Nat),
          find_escape_sequences l t.escape_state = .ESCAPE_STATE_LAST →
          read_loop L cfg pattern t [l, c]
            = ([Out.putwchar l,
                spec_truecolor_escape L cfg pattern t.char_index t.line_index,
                spec_truecolor_escape L cfg pattern (t.char_index + L.wcwidth c) t.line_index,
                Out.putwchar c],
                some { t with escape_state := .ESCAPE_STATE_OUT,
                              char_index := t.char_index + L.wcwidth c })) := by
  have hpc : ∀ ci li cc : Int,
      print_color L pattern cfg.color_type ci li cfg.freq_h cfg.freq_v cfg.offx
          cfg.rand_offset cc
        = some [spec_truecolor_escape L cfg pattern ci li] := by
    intro ci li cc
    unfold spec_truecolor_escape spec_phase
    cases hg : pattern.get_color <;>
      simp [Config.color_type, hb, print_color, call_get_color, hg, print_color_theta]
  have hord : ∀ t : loop_vars, find_escape_sequences c t.escape_state = .ESCAPE_STATE_OUT →
      loop_body L cfg pattern t c
        = ([spec_truecolor_escape L cfg pattern (t.char_index + L.wcwidth c) t.line_index,
            Out.putwchar c],
            some { t with escape_state := .ESCAPE_STATE_OUT,
                          char_index := t.char_index + L.wcwidth c }) := by
    intro t ht
    simp [loop_body, handle_colors, after_putwchar, hc, ht, hn, hpc]
  refine ⟨hord s hst,
    fun column row => spec_truecolor_escape_color L cfg pattern column row, ?_, ?_⟩
  · intro t p hp
    obtain ⟨before, t1, hbody, -, ht1⟩ := loop_body_out L cfg pattern t p hc hp
    have hcl : find_escape_sequences c t1.escape_state = .ESCAPE_STATE_OUT :=
      find_escape_sequences_out c _ _ hst (by rw [ht1]; decide)
    refine ⟨before, t1, hbody, ?_⟩
    simp [read_loop, hbody, hord t1 hcl]
  · intro t l hl
    have hlast : loop_body L cfg pattern t l
        = ([Out.putwchar l, spec_truecolor_escape L cfg pattern t.char_index t.line_index],
            some { t with escape_state := .ESCAPE_STATE_LAST }) := by
      simp [loop_body, handle_colors, after_putwchar, hc, hl, hpc]
    have hcl : find_escape_sequences c
        ({ t with escape_state := .ESCAPE_STATE_LAST } : loop_vars).escape_state
          = .ESCAPE_STATE_OUT :=
      find_escape_sequences_out c _ _ hst (by simp)
    simp [read_loop, hlast, hord _ hcl]

/-- The letter `A` after the letter `m` that ends a foreign escape sequence at
column 0 of row 0 under `cfg_24bit`: the hypotheses of C18 hold for `A`, and
`m`, the escape at column 0, the escape at column 1 and `A` are written. -/
theorem truecolor_before_every_character_witness :
    (cfg_24bit.print_colors = true ∧ cfg_24bit.bit24 = true
        ∧ find_escape_sequences 65 escape_state_t.ESCAPE_STATE_OUT
          = escape_state_t.ESCAPE_STATE_OUT
        ∧ (65 : Nat) ≠ 10
        ∧ find_escape_sequences 109 escape_state_t.ESCAPE_STATE_IN
          = escape_state_t.ESCAPE_STATE_LAST)
      ∧ read_loop libc_eval cfg_24bit rainbow
          { cc := -1, char_index := 0, line_index := 0,
            escape_state := escape_state_t.ESCAPE_STATE_IN } [109, 65]
        = ([Out.putwchar 109,
            spec_truecolor_escape libc_eval cfg_24bit rainbow 0 0,
            spec_truecolor_escape libc_eval cfg_24bit rainbow (0 + libc_eval.wcwidth 65) 0,
            Out.putwchar 65],
            some { cc := -1, char_index := 0 + libc_eval.wcwidth 65, line_index := 0,
                   escape_state := escape_state_t.ESCAPE_STATE_OUT }) :=
  ⟨⟨rfl, rfl, by decide, by decide, by decide⟩,
    (truecolor_before_every_character libc_eval cfg_24bit rainbow
      { cc := -1, char_index := 0, line_index := 0,
        escape_state := escape_state_t.ESCAPE_STATE_OUT } 65 rfl rfl (by decide)
      (by decide)).2.2.2
      { cc := -1, char_index := 0, line_index := 0,
        escape_state := escape_state_t.ESCAPE_STATE_IN } 109 (by decide)⟩

/-- C19 (counterexample): with coloring active (`cfg_flat`, palette mode), in
the stream `ESC m ESC` the second escape character is classified `IN`, and the
palette escape written after the letter `m` (which ends the first sequence)
stands immediately before it. -/
theorem escape_before_inside_character :
    (read_loop libc_eval cfg_flat rainbow
        { cc := -1, char_index := 0, line_index := 0,
          escape_state := escape_state_t.ESCAPE_STATE_OUT } [27, 109]).2
        = some { cc := -1, char_index := 0, line_index := 0,
                 escape_state := escape_state_t.ESCAPE_STATE_LAST }
      ∧ find_escape_sequences 27 escape_state_t.ESCAPE_STATE_LAST
        = escape_state_t.ESCAPE_STATE_IN
      ∧ read_loop libc_eval cfg_flat rainbow
          { cc := -1, char_index := 0, line_index := 0,
            escape_state := escape_state_t.ESCAPE_STATE_OUT } [27, 109, 27]
        = ([Out.putwchar 27, Out.putwchar 109, Out.ansi 39, Out.putwchar 27],
            some { cc := -1, char_index := 0, line_index := 0,
                   escape_state := escape_state_t.ESCAPE_STATE_IN }) := by
  refine ⟨?_, by decide, ?_⟩
  · simp [read_loop, loop_body, handle_colors, after_putwchar, find_escape_sequences,
      IS_LETTER, print_color, print_color_ncc, print_color_position, double_to_int,
      int_to_unsigned, Config.color_type, cfg_flat, rainbow]
  · simp [read_loop, loop_body, handle_colors, after_putwchar, find_escape_sequences,
      IS_LETTER, print_color, print_color_ncc, print_color_position, double_to_int,
      int_to_unsigned, Config.color_type, cfg_flat, rainbow]

/-- C19 (amended): with coloring active, the arithmetic taken as exact, the
loop iteration of a character classified `IN` or `LAST` writes the character
first, with no escape of its own before it, and leaves column, row and `cc` as
they are; nothing follows a character classified `IN`; in 24-bit mode a
character classified `LAST` is followed by exactly one true-color escape,
whose color is the pattern's color function at the phase of the unchanged
column and row, so that a foreign escape sequence (the escape character,
non-letters, a letter) is written verbatim and followed by one escape computed
at the column and row that held before the sequence began. An engine escape
stands immediately before a character classified `IN` or `LAST` only when the
preceding character was classified `LAST`: after any other predecessor the two
characters are adjacent in the output, and an escape character read right
after a character classified `LAST` comes after that character's escape. -/
theorem escape_sequence_frame (L : Libc K) (cfg : Config K) (pattern : pattern_t K)
    (s : loop_vars) (c : Nat) (hc : cfg.print_colors = true) :
    (find_escape_sequences c s.escape_state = .ESCAPE_STATE_IN →
        loop_body L cfg pattern s c
          = ([Out.putwchar c], some { s with escape_state := .ESCAPE_STATE_IN }))
      ∧ (find_escape_sequences c s.escape_state = .ESCAPE_STATE_LAST →
          ∃ after, loop_body L cfg pattern s c
              = (Out.putwchar c :: after, some { s with escape_state := .ESCAPE_STATE_LAST })
            ∧ chars_written after = []
            ∧ (cfg.bit24 = true →
                after = [spec_truecolor_escape L cfg pattern s.char_index s.line_index]))
      ∧ (∀ column row : Int, ∃ (theta : K) (color : color_t),
          theta = (column : K) * cfg.freq_h / 5 + (row : K) * cfg.freq_v
              + (cfg.offx + 2 * (cfg.rand_offset : K) / L.RAND_MAX) * L.M_PI
            ∧ (pattern.get_color = .get_color_rainbow →
                color = get_color_rainbow L.sin L.M_PI theta)
            ∧ (pattern.get_color = .get_color_stripes →
                color = get_color_stripes L.pow L.M_PI pattern.color_pattern theta
                  { red := 0, green := 0, blue := 0 })
            ∧ spec_truecolor_escape L cfg pattern column row
              = Out.rgb color.red color.green color.blue)
      ∧ (∀ (mid : List Nat) (l : Nat), (∀ m ∈ mid, IS_LETTER m = false) →
          IS_LETTER l = true → cfg.bit24 = true →
          read_loop L cfg pattern s (27 :: (mid ++ [l]))
            = (Out.putwchar 27 :: (mid.map Out.putwchar
                ++ [Out.putwchar l,
                    spec_truecolor_escape L cfg pattern s.char_index s.line_index]),
                some { s with escape_state := .ESCAPE_STATE_LAST }))
      ∧ (∀ (t : loop_vars) (p : Nat),
          find_escape_sequences p t.escape_state ≠ .ESCAPE_STATE_LAST →
          find_escape_sequences c (find_escape_sequences p t.escape_state)
            ≠ .ESCAPE_STATE_OUT →
          ∃ before after t2, read_loop L cfg pattern t [p, c]
              = (before ++ Out.putwchar p :: Out.putwchar c :: after, some t2)
            ∧ chars_written before = [] ∧ chars_written after = [])
      ∧ (∀ (t : loop_vars) (p : Nat),
          find_escape_sequences p t.escape_state = .ESCAPE_STATE_LAST →
          cfg.bit24 = true →
          read_loop L cfg pattern t [p, 27]
            = ([Out.putwchar p,
                spec_truecolor_escape L cfg pattern t.char_index t.line_index,
                Out.putwchar 27],
                some { t with escape_state := .ESCAPE_STATE_IN })) := by
  have hpc : cfg.bit24 = true → ∀ ci li cc : Int,
      print_color L pattern cfg.color_type ci li cfg.freq_h cfg.freq_v cfg.offx
          cfg.rand_offset cc
        = some [spec_truecolor_escape L cfg pattern ci li] := by
    intro hb ci li cc
    unfold spec_truecolor_escape spec_phase
    cases hg : pattern.get_color <;>
      simp [Config.color_type, hb, print_color, call_get_color, hg, print_color_theta]
  have hlast24 : cfg.bit24 = true → ∀ (t : loop_vars) (l : Nat),
      find_escape_sequences l t.escape_state = .ESCAPE_STATE_LAST →
      loop_body L cfg pattern t l
        = ([Out.putwchar l, spec_truecolor_escape L cfg pattern t.char_index t.line_index],
            some { t with escape_state := .ESCAPE_STATE_LAST }) := by
    intro hb t l hl
    simp [loop_body, handle_colors, after_putwchar, hc, hl, hpc hb]
  have hin : ∀ (t : loop_vars) (d : Nat),
      find_escape_sequences d t.escape_state = .ESCAPE_STATE_IN →
      loop_body L cfg pattern t d
        = ([Out.putwchar d], some { t with escape_state := .ESCAPE_STATE_IN }) := by
    intro t d hd
    simp [loop_body, handle_colors, after_putwchar, hc, hd]
  refine ⟨hin s c, ?_,
    fun column row => spec_truecolor_escape_color L cfg pattern column row, ?_, ?_, ?_⟩
  · intro h
    obtain ⟨o, ho1, ho2, -⟩ := print_color_main L cfg pattern s.char_index s.line_index s.cc
    refine ⟨o, ?_, ho2, ?_⟩
    · simp [loop_body, handle_colors, after_putwchar, hc, h, ho1]
    · intro hb
      rw [hpc hb] at ho1
      simp only [Option.some.injEq] at ho1
      exact ho1.symm
  · intro mid l hmid hl hb
    have hl27 : l ≠ 27 := by
      intro h
      rw [h] at hl
      simp [IS_LETTER] at hl
    have hlast : find_escape_sequences l
        ({ s with escape_state := .ESCAPE_STATE_IN } : loop_vars).escape_state
          = .ESCAPE_STATE_LAST := by
      simp [find_escape_sequences, hl27, hl]
    have hstep := hlast24 hb { s with escape_state := .ESCAPE_STATE_IN } l hlast
    have hmid1 := read_loop_inside L cfg pattern mid
      { s with escape_state := .ESCAPE_STATE_IN } hc rfl hmid
    have hone : read_loop L cfg pattern { s with escape_state := .ESCAPE_STATE_IN } [l]
        = ([Out.putwchar l, spec_truecolor_escape L cfg pattern s.char_index s.line_index],
            some { s with escape_state := .ESCAPE_STATE_LAST }) := by
      simp [read_loop, hstep]
    have happ := read_loop_append L cfg pattern mid [l] _ _ _ hmid1
    rw [hone] at happ
    simp [read_loop, hin s 27 (find_escape_sequences_esc _), happ]
  · intro t p hp hcn
    -- the predecessor: classified `OUT` or `IN`, it is the last thing written
    have hpred : ∃ before t1, loop_body L cfg pattern t p
          = (before ++ [Out.putwchar p], some t1)
        ∧ chars_written before = []
        ∧ t1.escape_state = find_escape_sequences p t.escape_state := by
      cases hcl : find_escape_sequences p t.escape_state with
      | ESCAPE_STATE_OUT =>
        obtain ⟨before, t1, h1, h2, h3⟩ := loop_body_out L cfg pattern t p hc hcl
        exact ⟨before, t1, h1, h2, h3⟩
      | ESCAPE_STATE_IN =>
        exact ⟨[], { t with escape_state := .ESCAPE_STATE_IN }, hin t p hcl, rfl, rfl⟩
      | ESCAPE_STATE_LAST => exact absurd hcl hp
    obtain ⟨before, t1, hbody, hbefore, ht1⟩ := hpred
    rw [← ht1] at hcn
    cases hcl : find_escape_sequences c t1.escape_state with
    | ESCAPE_STATE_OUT => exact absurd hcl hcn
    | ESCAPE_STATE_IN =>
      refine ⟨before, [], { t1 with escape_state := .ESCAPE_STATE_IN }, ?_, hbefore, rfl⟩
      simp [read_loop, hbody, hin t1 c hcl]
    | ESCAPE_STATE_LAST =>
      obtain ⟨after, ha, h1, -⟩ := loop_body_last L cfg pattern t1 c hc hcl
      refine ⟨before, after, { t1 with escape_state := .ESCAPE_STATE_LAST }, ?_, hbefore, h1⟩
      simp [read_loop, hbody, ha]
  · intro t p hp hb
    have hlast := hlast24 hb t p hp
    have hesc := hin { t with escape_state := .ESCAPE_STATE_LAST } 27
      (find_escape_sequences_esc _)
    simp [read_loop, hlast, hesc]

/-- The sequence `ESC [ 3 1 m` read at column 4 of row 2 under `cfg_24bit`: the
hypothesis of C19 holds, and the sequence is written verbatim, followed by one
escape computed at column 4 and row 2. -/
theorem escape_sequence_frame_witness :
    cfg_24bit.print_colors = true
      ∧ read_loop libc_eval cfg_24bit rainbow
          { cc := -1, char_index := 4, line_index := 2,
            escape_state := escape_state_t.ESCAPE_STATE_OUT } (27 :: ([91, 51, 49] ++ [109]))
        = (Out.putwchar 27 :: ([91, 51, 49].map Out.putwchar
            ++ [Out.putwchar 109, spec_truecolor_escape libc_eval cfg_24bit rainbow 4 2]),
            some { cc := -1, char_index := 4, line_index := 2,
                   escape_state := escape_state_t.ESCAPE_STATE_LAST }) :=
  ⟨rfl, (escape_sequence_frame libc_eval cfg_24bit rainbow
      { cc := -1, char_index := 4, line_index := 2,
        escape_state := escape_state_t.ESCAPE_STATE_OUT } 27 rfl).2.2.2.1
      [91, 51, 49] 109 (by decide) (by decide) rfl⟩

end LoopSteps

section PaletteAndPlain

variable {K : Type} [LinearOrderedField K] [FloorRing K]

/-! ## The value of `cc`, and coloring switched off -/

/-- In palette mode `print_color` called with `cc = -1` writes the palette
escape exactly when the computed index differs from -1. -/
theorem print_color_palette (L : Libc K) (cfg : Config K) (pattern : pattern_t K)
    (ci li : Int) (hb : cfg.bit24 = false) :
    print_color L pattern cfg.color_type ci li cfg.freq_h cfg.freq_v cfg.offx
        cfg.rand_offset (-1)
      = some (spec_palette_escape cfg pattern ci li) := by
  unfold print_color spec_palette_escape Config.color_type
  simp only [hb, Bool.false_eq_true, if_false]
  by_cases h : print_color_ncc pattern ci li cfg.freq_h cfg.freq_v cfg.offx = -1
  · simp [h]
  · have h1 : (-1 : Int) ≠ print_color_ncc pattern ci li cfg.freq_h cfg.freq_v cfg.offx :=
      fun e => h e.symm
    simp [h, h1]

/-- No iteration of the loop changes the `cc` of `main`. -/
theorem loop_body_cc (L : Libc K) (cfg : Config K) (pattern : pattern_t K)
    (s : loop_vars) (c : Nat) :
    ∃ out s1, loop_body L cfg pattern s c = (out, some s1) ∧ s1.cc = s.cc := by
  by_cases hc : cfg.print_colors = true
  · cases hst : find_escape_sequences c s.escape_state with
    | ESCAPE_STATE_OUT =>
      by_cases hn : c = 10
      · subst hn
        exact ⟨_, _, loop_body_newline L cfg pattern s hc hst, rfl⟩
      · obtain ⟨o, -, hb⟩ := loop_body_ordinary L cfg pattern s c hc hst hn
        exact ⟨_, _, hb, rfl⟩
    | ESCAPE_STATE_IN => exact ⟨_, _, loop_body_in L cfg pattern s c hc hst, rfl⟩
    | ESCAPE_STATE_LAST =>
      obtain ⟨after, ha, -⟩ := loop_body_last L cfg pattern s c hc hst
      exact ⟨_, _, ha, rfl⟩
  · obtain ⟨out, ho⟩ := loop_body_plain L cfg pattern s c (by simpa using hc)
    exact ⟨out, s, ho, rfl⟩

/-- Over a stream the `cc` of `main` keeps its value. -/
theorem read_loop_cc (L : Libc K) (cfg : Config K) (pattern : pattern_t K)
    (input : List Nat) (s : loop_vars) :
    ∃ out s1, read_loop L cfg pattern s input = (out, some s1) ∧ s1.cc = s.cc := by
  induction input generalizing s with
  | nil => exact ⟨[], s, rfl, rfl⟩
  | cons c rest ih =>
    obtain ⟨o, s1, hb, h1⟩ := loop_body_cc L cfg pattern s c
    obtain ⟨o2, s2, hrl, h2⟩ := ih s1
    exact ⟨o ++ o2, s2, by simp [read_loop, hb, hrl], by rw [h2, h1]⟩

/-- C21: in palette mode with coloring active, `cc` is -1 before the first
stream and after every stream, and no character changes it, so it is -1 at
every call of `print_color`; hence a character classified `OUT` that is not a
newline is preceded by the palette escape of its index exactly when that
index differs from -1, and a character classified `LAST` is followed by the
palette escape of the index at the unchanged column and row exactly when that
index differs from -1. -/
theorem palette_cc_always_minus_one (L : Libc K) (cfg : Config K) (pattern : pattern_t K)
    (v : main_vars) (input processed : List Nat) (s : loop_vars) (c : Nat)
    (hc : cfg.print_colors = true) (hb : cfg.bit24 = false) (hcc : s.cc = -1) :
    main_vars_init.cc = -1
      ∧ (∃ out v1, process_file L cfg pattern v input = (out, some v1) ∧ v1.cc = -1)
      ∧ ∃ out s1, read_loop L cfg pattern s processed = (out, some s1)
          ∧ s1.cc = -1
          ∧ (find_escape_sequences c s1.escape_state = .ESCAPE_STATE_OUT → c ≠ 10 →
              loop_body L cfg pattern s1 c
                = (spec_palette_escape cfg pattern (s1.char_index + L.wcwidth c) s1.line_index
                    ++ [Out.putwchar c],
                    some { s1 with escape_state := .ESCAPE_STATE_OUT,
                                   char_index := s1.char_index + L.wcwidth c }))
          ∧ (find_escape_sequences c s1.escape_state = .ESCAPE_STATE_LAST →
              loop_body L cfg pattern s1 c
                = (Out.putwchar c :: spec_palette_escape cfg pattern s1.char_index s1.line_index,
                    some { s1 with escape_state := .ESCAPE_STATE_LAST })) := by
  obtain ⟨body, s0, -, hp, -⟩ := process_file_shape L cfg pattern v input
  obtain ⟨out, s1, hrl, h1⟩ := read_loop_cc L cfg pattern processed s
  have hcc1 : s1.cc = -1 := by rw [h1, hcc]
  refine ⟨rfl, ⟨_, _, hp, rfl⟩, out, s1, hrl, hcc1, ?_, ?_⟩
  · intro hst hn
    obtain ⟨o, ho, hbody⟩ := loop_body_ordinary L cfg pattern s1 c hc hst hn
    rw [hcc1, print_color_palette L cfg pattern _ _ hb] at ho
    simp only [Option.some.injEq] at ho
    rw [hbody, ← ho]
  · intro hst
    have ho := print_color_palette L cfg pattern s1.char_index s1.line_index hb
    rw [← hcc1] at ho
    simp [loop_body, handle_colors, after_putwchar, hc, hst, ho]

/-- The stream `"A"` followed by the letter `B` under `cfg_step`: the
hypotheses of C21 hold and its conclusion is obtained there. -/
theorem palette_cc_always_minus_one_witness :
    (cfg_step.print_colors = true ∧ cfg_step.bit24 = false ∧ (-1 : Int) = -1)
      ∧ ∃ out s1, read_loop libc_eval cfg_step rainbow
            { cc := -1, char_index := 0, line_index := 0,
              escape_state := escape_state_t.ESCAPE_STATE_OUT } [65] = (out, some s1)
          ∧ s1.cc = -1
          ∧ (find_escape_sequences 66 s1.escape_state = escape_state_t.ESCAPE_STATE_OUT →
              66 ≠ 10 →
              loop_body libc_eval cfg_step rainbow s1 66
                = (spec_palette_escape cfg_step rainbow
                      (s1.char_index + libc_eval.wcwidth 66) s1.line_index
                    ++ [Out.putwchar 66],
                    some { s1 with escape_state := escape_state_t.ESCAPE_STATE_OUT,
                                   char_index := s1.char_index + libc_eval.wcwidth 66 }))
          ∧ (find_escape_sequences 66 s1.escape_state = escape_state_t.ESCAPE_STATE_LAST →
              loop_body libc_eval cfg_step rainbow s1 66
                = (Out.putwchar 66
                    :: spec_palette_escape cfg_step rainbow s1.char_index s1.line_index,
                    some { s1 with escape_state := escape_state_t.ESCAPE_STATE_LAST })) :=
  ⟨⟨rfl, rfl, rfl⟩,
    (palette_cc_always_minus_one libc_eval cfg_step rainbow main_vars_init [65] [65]
      { cc := -1, char_index := 0, line_index := 0,
        escape_state := escape_state_t.ESCAPE_STATE_OUT } 66 rfl rfl rfl).2.2⟩

/-- With coloring not active and the escape state `OUT`, an iteration writes
its character alone and leaves every variable as it is. -/
theorem loop_body_plain_out (L : Libc K) (cfg : Config K) (pattern : pattern_t K)
    (s : loop_vars) (c : Nat) (hc : cfg.print_colors = false)
    (hs : s.escape_state = .ESCAPE_STATE_OUT) :
    loop_body L cfg pattern s c = ([Out.putwchar c], some s) := by
  simp [loop_body, handle_colors, after_putwchar, hc, hs]

/-- C22: with coloring not active, whatever the other configuration values, an
iteration of the stream loop writes its character alone and leaves escape
state, column and row (and `cc`) as they are; so the loop over a stream writes
exactly the input characters, with no escape sequence, and the output for the
stream is exactly that (no reset escape either), column and row unchanged. -/
theorem coloring_off_identity (L : Libc K) (cfg : Config K) (pattern : pattern_t K)
    (v : main_vars) (input : List Nat) (s : loop_vars) (c : Nat)
    (hc : cfg.print_colors = false) (hs : s.escape_state = .ESCAPE_STATE_OUT) :
    loop_body L cfg pattern s c = ([Out.putwchar c], some s)
      ∧ read_loop L cfg pattern s input = (input.map Out.putwchar, some s)
      ∧ process_file L cfg pattern v input
        = (input.map Out.putwchar,
            some { cc := -1, char_index := v.char_index, line_index := v.line_index }) := by
  have hloop : ∀ (xs : List Nat) (t : loop_vars), t.escape_state = .ESCAPE_STATE_OUT →
      read_loop L cfg pattern t xs = (xs.map Out.putwchar, some t) := by
    intro xs
    induction xs with
    | nil =>
      intro t _
      rfl
    | cons x rest ih =>
      intro t ht
      simp [read_loop, loop_body_plain_out L cfg pattern t x hc ht, ih t ht]
  refine ⟨loop_body_plain_out L cfg pattern s c hc hs, hloop input s hs, ?_⟩
  unfold process_file
  rw [hloop input _ rfl]
  simp [hc]

/-- The stream `A ESC [ 3 1 m B \n` under `cfg_plain`: the hypotheses of C22
hold, and the output is the eight input characters, column and row staying
0. -/
theorem coloring_off_identity_witness :
    (cfg_plain.print_colors = false
        ∧ escape_state_t.ESCAPE_STATE_OUT = escape_state_t.ESCAPE_STATE_OUT)
      ∧ process_file libc_eval cfg_plain rainbow main_vars_init
          [65, 27, 91, 51, 49, 109, 66, 10]
        = ([65, 27, 91, 51, 49, 109, 66, 10].map Out.putwchar,
            some { cc := -1, char_index := main_vars_init.char_index,
                   line_index := main_vars_init.line_index }) :=
  ⟨⟨rfl, rfl⟩,
    (coloring_off_identity libc_eval cfg_plain rainbow main_vars_init
      [65, 27, 91, 51, 49, 109, 66, 10]
      { cc := -1, char_index := 0, line_index := 0,
        escape_state := escape_state_t.ESCAPE_STATE_OUT } 65 rfl rfl).2.2⟩

end PaletteAndPlain

section FloatLoops

/-! ## The phase loops in binary32 arithmetic -/

/-- A value less than one half away from an integer rounds to it. -/
theorem lrintf_eq_of_near {K : Type} [LinearOrderedField K] [FloorRing K] (y : K) (k : Int)
    (h1 : (k : K) - 1 / 2 < y) (h2 : y < (k : K) + 1 / 2) : lrintf y = k := by
  have hn := lrintf_near y
  rw [abs_le] at hn
  have ha : ((lrintf y : Int) : K) < ((k + 1 : Int) : K) := by
    push_cast
    linarith
  have hb : ((k - 1 : Int) : K) < ((lrintf y : Int) : K) := by
    push_cast
    linarith
  have ha1 : lrintf y < k + 1 := by exact_mod_cast ha
  have hb1 : k - 1 < lrintf y := by exact_mod_cast hb
  omega

/-- Between `2^27` and `2^28` binary32 numbers are 16 apart: every value less
than 8 away from `2 * 10^8` rounds to `2 * 10^8`. -/
theorem to_float_near_2e8 (x : ℚ) (h1 : 199999992 < x) (h2 : x < 200000008) :
    to_float x = 200000000 := by
  have hpos : 0 < x := by linarith
  have hlog : Int.log 2 |x| = 27 := by
    rw [abs_of_pos hpos]
    have ha : (27 : Int) ≤ Int.log 2 x := by
      rw [← Int.zpow_le_iff_le_log (by norm_num) hpos]
      norm_num
      linarith
    have hb : Int.log 2 x < 28 := by
      rw [← Int.lt_zpow_iff_log_lt (by norm_num) hpos]
      norm_num
      linarith
    omega
  unfold to_float
  rw [if_neg (ne_of_gt hpos), hlog]
  have hulp : (2 : ℚ) ^ ((27 : Int) - 23) = 16 := by norm_num
  rw [hulp]
  have hr : lrintf (x / 16) = 12500000 := by
    apply lrintf_eq_of_near
    · rw [lt_div_iff₀ (by norm_num)]
      push_cast
      linarith
    · rw [div_lt_iff₀ (by norm_num)]
      push_cast
      linarith
  rw [hr]
  norm_num

/-- The mirror image: every value less than 8 away from `-2 * 10^8` rounds to
`-2 * 10^8`. -/
theorem to_float_near_neg_2e8 (x : ℚ) (h1 : -200000008 < x) (h2 : x < -199999992) :
    to_float x = -200000000 := by
  have hneg : x < 0 := by linarith
  have hpos : 0 < -x := by linarith
  have hlog : Int.log 2 |x| = 27 := by
    rw [abs_of_neg hneg]
    have ha : (27 : Int) ≤ Int.log 2 (-x) := by
      rw [← Int.zpow_le_iff_le_log (by norm_num) hpos]
      norm_num
      linarith
    have hb : Int.log 2 (-x) < 28 := by
      rw [← Int.lt_zpow_iff_log_lt (by norm_num) hpos]
      norm_num
      linarith
    omega
  unfold to_float
  rw [if_neg (ne_of_lt hneg), hlog]
  have hulp : (2 : ℚ) ^ ((27 : Int) - 23) = 16 := by norm_num
  rw [hulp]
  have hr : lrintf (x / 16) = -12500000 := by
    apply lrintf_eq_of_near
    · rw [lt_div_iff₀ (by norm_num)]
      push_cast
      linarith
    · rw [div_lt_iff₀ (by norm_num)]
      push_cast
      linarith
  rw [hr]
  norm_num

/-- C1 (the code at the failing input): for the command line `-F -b -h 1e9` and
the stream `"A"`, `print_color` is called for `A` at column 1 before `putwchar`
and stores the phase `2 * 10^8` in its `float theta` (also for every base
offset, which adds less than 8); subtracting `2.0f * (float)M_PI` from it
rounds back to `2 * 10^8`, so the second loop of `get_color_rainbow` does not
end within any number of iterations: `A` is never written. -/
theorem float_sub_loop_never_ends :
    print_color_theta_float libc_eval (0 + libc_eval.wcwidth 65) 0
        cfg_huge.freq_h cfg_huge.freq_v cfg_huge.offx cfg_huge.rand_offset = 200000000
      ∧ (∀ delta : ℚ, 0 ≤ delta → delta < 8 → to_float (200000000 + delta) = 200000000)
      ∧ FLOAT_TWO_PI ≤ 200000000
      ∧ to_float (200000000 - FLOAT_TWO_PI) = 200000000
      ∧ (∀ fuel : Nat, theta_sub_loop_float fuel 200000000 = none)
      ∧ (∀ fuel : Nat, theta_in_range_float fuel 200000000 = none) := by
  have hcond : FLOAT_TWO_PI ≤ 200000000 := by
    unfold FLOAT_TWO_PI
    norm_num
  have hstep : to_float (200000000 - FLOAT_TWO_PI) = 200000000 := by
    apply to_float_near_2e8
    · unfold FLOAT_TWO_PI
      norm_num
    · unfold FLOAT_TWO_PI
      norm_num
  have hsub : ∀ fuel : Nat, theta_sub_loop_float fuel 200000000 = none := by
    intro fuel
    induction fuel with
    | zero => simp [theta_sub_loop_float, hcond]
    | succ n ih => simp [theta_sub_loop_float, hcond, hstep, ih]
  refine ⟨?_, ?_, hcond, hstep, hsub, ?_⟩
  · have hphase : print_color_theta libc_eval (0 + libc_eval.wcwidth 65) 0
        cfg_huge.freq_h cfg_huge.freq_v cfg_huge.offx cfg_huge.rand_offset = 200000000 := by
      simp [print_color_theta, cfg_huge, libc_eval, wcwidth_ascii]
      norm_num
    unfold print_color_theta_float
    rw [hphase]
    exact to_float_near_2e8 _ (by norm_num) (by norm_num)
  · intro delta h0 h8
    exact to_float_near_2e8 _ (by linarith) (by linarith)
  · intro fuel
    have hadd : theta_add_loop_float fuel 200000000 = some 200000000 := by
      cases fuel <;> simp [theta_add_loop_float]
    simp [theta_in_range_float, hadd, hsub]

/-- C7 (the code at the failing input): for the command line `-F -b -h -1e9`
and the stream `"A"`, `print_color` stores the phase `-2 * 10^8` in its
`float theta` (also for every base offset, which adds less than 8); adding
`2.0f * (float)M_PI` to it rounds back to `-2 * 10^8`, so the first loop of
`get_color_rainbow` does not end within any number of iterations: the end of
the stream, where the reset escape is written, is never reached. -/
theorem float_add_loop_never_ends :
    print_color_theta_float libc_eval (0 + libc_eval.wcwidth 65) 0
        cfg_huge_neg.freq_h cfg_huge_neg.freq_v cfg_huge_neg.offx cfg_huge_neg.rand_offset
        = -200000000
      ∧ (∀ delta : ℚ, 0 ≤ delta → delta < 8 → to_float (-200000000 + delta) = -200000000)
      ∧ to_float (-200000000 + FLOAT_TWO_PI) = -200000000
      ∧ (∀ fuel : Nat, theta_add_loop_float fuel (-200000000) = none)
      ∧ (∀ fuel : Nat, theta_in_range_float fuel (-200000000) = none) := by
  have hstep : to_float (-200000000 + FLOAT_TWO_PI) = -200000000 := by
    apply to_float_near_neg_2e8
    · unfold FLOAT_TWO_PI
      norm_num
    · unfold FLOAT_TWO_PI
      norm_num
  have hadd : ∀ fuel : Nat, theta_add_loop_float fuel (-200000000) = none := by
    intro fuel
    induction fuel with
    | zero => simp [theta_add_loop_float]
    | succ n ih => simp [theta_add_loop_float, hstep, ih]
  refine ⟨?_, ?_, hstep, hadd, ?_⟩
  · have hphase : print_color_theta libc_eval (0 + libc_eval.wcwidth 65) 0
        cfg_huge_neg.freq_h cfg_huge_neg.freq_v cfg_huge_neg.offx cfg_huge_neg.rand_offset
        = -200000000 := by
      simp [print_color_theta, cfg_huge_neg, libc_eval, wcwidth_ascii]
      norm_num
    unfold print_color_theta_float
    rw [hphase]
    exact to_float_near_neg_2e8 _ (by norm_num) (by norm_num)
  · intro delta h0 h8
    exact to_float_near_neg_2e8 _ (by linarith) (by linarith)
  · intro fuel
    simp [theta_in_range_float, hadd]

end FloatLoops

end Queercat
